import Mathlib

/-!
# greip: extraction and CIDR classification of IPv4 addresses

A shallow embedding of `main.go`: the pattern `ipRegex`, the helper
`isIPInRange`, the range-loading loop and the log-processing loop of `main`,
followed by the properties proved about them.

Text is modelled as `List Char` (one element per rune).  The functions of the
Go standard library that `main.go` calls (`regexp`, `net`, `strings`) are
modelled by the definitions of the first sections.
-/

namespace Greip

/-! ## Regular expressions (`regexp`) -/

/-- The fragment of Go regular-expression syntax that `ipRegex` is written in. -/
inductive Regex where
  /-- The empty expression, as the last alternative of `(2[0-4]|1\d|[1-9]|)`. -/
  | empty : Regex
  /-- A literal character, such as `2` or `\.`. -/
  | lit : Char → Regex
  /-- A character class `[lo-hi]`; `\d` is `[0-9]`. -/
  | cls : Char → Char → Regex
  /-- Concatenation. -/
  | cat : Regex → Regex → Regex
  /-- Alternation `a|b`, the left alternative preferred. -/
  | alt : Regex → Regex → Regex
  /-- Counted repetition `a{n}`. -/
  | rep : Nat → Regex → Regex
  /-- The assertion `^` (beginning of text; no multi-line flag is set). -/
  | beginText : Regex
  /-- The assertion `$` (end of text; no multi-line flag is set). -/
  | endText : Regex
deriving Repr

/-- Chains `n` rounds of a one-step matcher `f` starting at position `p`. -/
def iterate (f : Nat → List Nat) : Nat → Nat → List Nat
  | 0, p => [p]
  | n + 1, p => (f p).flatMap (iterate f n)

/-- The positions at which a match of the expression that starts at position
`p` of the text `t` can end, in the order of preference of a backtracking
matcher (leftmost-first, which is the match Go reports). -/
def Regex.ends : Regex → List Char → Nat → List Nat
  | .empty, _, p => [p]
  | .lit c, t, p => if t[p]? = some c then [p + 1] else []
  | .cls lo hi, t, p =>
    match t[p]? with
    | some c => if lo ≤ c ∧ c ≤ hi then [p + 1] else []
    | none => []
  | .cat a b, t, p => (a.ends t p).flatMap (b.ends t)
  | .alt a b, t, p => a.ends t p ++ b.ends t p
  | .rep n a, t, p => iterate (a.ends t) n p
  | .beginText, _, p => if p = 0 then [p] else []
  | .endText, t, p => if p = t.length then [p] else []

/-- The leftmost match that starts at position `pos` or later, as `(start, end)`;
`fuel` bounds the number of start positions tried. -/
def doExecute (re : Regex) (t : List Char) : Nat → Nat → Option (Nat × Nat)
  | 0, _ => none
  | fuel + 1, pos =>
    match (re.ends t pos).head? with
    | some e => some (pos, e)
    | none => doExecute re t fuel (pos + 1)

/-- The loop of `Regexp.allMatches`: successive non-overlapping matches, an
empty match directly after the previous match being dropped. -/
def allMatches (re : Regex) (t : List Char) : Nat → Nat → Int → List (Nat × Nat)
  | 0, _, _ => []
  | fuel + 1, pos, prevMatchEnd =>
    if pos ≤ t.length then
      match doExecute re t (t.length + 1 - pos) pos with
      | none => []
      | some (s, e) =>
        let accept := !(e == pos && (s : Int) == prevMatchEnd)
        let pos1 := if e == pos then pos + 1 else e
        let rest := allMatches re t fuel pos1 (e : Int)
        if accept then (s, e) :: rest else rest
    else []

/-- Go's `re.FindAllString(t, -1)`: the text of all successive matches (the
empty list stands for Go's `nil`). With `n = -1` the number of matches is not
limited. Each round of `allMatches` moves `pos` forward, so `t.length + 2`
rounds are never used up. -/
def findAllString (re : Regex) (t : List Char) : List (List Char) :=
  (allMatches re t (t.length + 2) 0 (-1)).map fun m => (t.drop m.1).take (m.2 - m.1)

/-- The sub-expression `(25[0-5]|(2[0-4]|1\d|[1-9]|)\d)` of `ipRegex`. -/
def octetRegex : Regex :=
  .alt (.cat (.lit '2') (.cat (.lit '5') (.cls '0' '5')))
    (.cat
      (.alt (.cat (.lit '2') (.cls '0' '4'))
        (.alt (.cat (.lit '1') (.cls '0' '9'))
          (.alt (.cls '1' '9') .empty)))
      (.cls '0' '9'))

/-- The pattern of `main.go`, line 65:
`^((25[0-5]|(2[0-4]|1\d|[1-9]|)\d)\.){3}(25[0-5]|(2[0-4]|1\d|[1-9]|)\d)$`. -/
def ipRegex : Regex :=
  .cat .beginText
    (.cat (.rep 3 (.cat octetRegex (.lit '.')))
      (.cat octetRegex .endText))

/-- The four-octet group of `ipRegex`, that is the pattern of line 65 between
its `^` and its `$`:
`((25[0-5]|(2[0-4]|1\d|[1-9]|)\d)\.){3}(25[0-5]|(2[0-4]|1\d|[1-9]|)\d)`. -/
def quadRegex : Regex :=
  .cat (.rep 3 (.cat octetRegex (.lit '.'))) octetRegex

/-! ## IP addresses and networks (`net`, `net/netip`)

An `IP` or `IPMask` is a list of bytes, Go's `nil` being the empty list.
`net.ParseIP` and `net.ParseCIDR` go through `netip.ParseAddr`, whose IPv4
branch is modelled here; its IPv6 branch is the parameter `parseIPv6` of the
definitions below: the 16 bytes of the address when `netip.parseIPv6` accepts
the text with an empty zone, `none` otherwise. -/

abbrev IP := List Nat
abbrev IPMask := List Nat

def IPv4len : Nat := 4
def IPv6len : Nat := 16

/-- The 12 bytes that precede an IPv4 address in its 16-byte form. -/
def v4InV6Prefix : List Nat := [0, 0, 0, 0, 0, 0, 0, 0, 0, 0, 0xff, 0xff]

/-- The loop of `netip.parseIPv4Fields` over the text `s` of length `len`:
`i` is the index of the next character and `prev` the character before it. -/
def parseIPv4Fields.loop (len : Nat) :
    List Char → Nat → Option Char → Nat → Nat → Nat → List Nat → Option (List Nat)
  | [], _, _, val, pos, _, fields =>
    if pos < 3 then none else some (fields.set 3 (val % 256))
  | c :: rest, i, prev, val, pos, digLen, fields =>
    if '0' ≤ c ∧ c ≤ '9' then
      if digLen = 1 ∧ val = 0 then none
      else
        let val1 := val * 10 + (c.toNat - '0'.toNat)
        if val1 > 255 then none
        else parseIPv4Fields.loop len rest (i + 1) (some c) val1 pos (digLen + 1) fields
    else if c = '.' then
      if i = 0 ∨ i = len - 1 ∨ prev = some '.' then none
      else if pos = 3 then none
      else parseIPv4Fields.loop len rest (i + 1) (some c) 0 (pos + 1) 0 (fields.set pos (val % 256))
    else none

/-- Go's `netip.parseIPv4`: the four fields of a dotted-decimal address, `none`
on any error (a missing or extra field, a leading zero, a value above 255, a
character that is neither a digit nor a dot). -/
def parseIPv4 (s : List Char) : Option (List Nat) :=
  parseIPv4Fields.loop s.length s 0 none 0 0 0 [0, 0, 0, 0]

/-- An address as `netip.ParseAddr` returns it (zone-less). -/
inductive Addr where
  | v4 : List Nat → Addr
  | v6 : List Nat → Addr
deriving Repr, DecidableEq

/-- Go's `Addr.As16`: an IPv4 address becomes its IPv4-mapped IPv6 form. -/
def Addr.As16 : Addr → IP
  | .v4 fields => v4InV6Prefix ++ fields
  | .v6 bytes => bytes

/-- Go's `Addr.BitLen`. -/
def Addr.BitLen : Addr → Nat
  | .v4 _ => 32
  | .v6 _ => 128

/-- The scan of `netip.ParseAddr` for the first `.`, `:` or `%` of `s`. -/
def ParseAddr.scan (parseIPv6 : List Char → Option (List Nat)) (s : List Char) :
    List Char → Option Addr
  | [] => none
  | c :: rest =>
    if c = '.' then (parseIPv4 s).map Addr.v4
    else if c = ':' then (parseIPv6 s).map Addr.v6
    else if c = '%' then none
    else ParseAddr.scan parseIPv6 s rest

/-- Go's `netip.ParseAddr`, restricted to results without a zone. -/
def ParseAddr (parseIPv6 : List Char → Option (List Nat)) (s : List Char) : Option Addr :=
  ParseAddr.scan parseIPv6 s s

/-- Go's `net.ParseIP`: the 16-byte form of the address, `none` for Go's `nil`. -/
def ParseIP (parseIPv6 : List Char → Option (List Nat)) (s : List Char) : Option IP :=
  (ParseAddr parseIPv6 s).map Addr.As16

/-- The loop of `net.dtoi`; `big` is `0xFFFFFF`. -/
def dtoi.loop : List Char → Nat → Nat → Nat × Nat × Bool
  | [], n, i => if i = 0 then (0, 0, false) else (n, i, true)
  | c :: rest, n, i =>
    if '0' ≤ c ∧ c ≤ '9' then
      let n1 := n * 10 + (c.toNat - '0'.toNat)
      if n1 ≥ 0xFFFFFF then (0xFFFFFF, i, false)
      else dtoi.loop rest n1 (i + 1)
    else if i = 0 then (0, 0, false) else (n, i, true)

/-- Go's `net.dtoi`: decimal to integer, as (value, characters consumed, ok). -/
def dtoi (s : List Char) : Nat × Nat × Bool := dtoi.loop s 0 0

/-- The loop of `net.CIDRMask` over the `l` bytes of the mask. -/
def CIDRMask.loop : Nat → Nat → IPMask
  | 0, _ => []
  | l + 1, n =>
    if n ≥ 8 then 0xff :: CIDRMask.loop l (n - 8)
    else (0xff ^^^ (0xff >>> n)) :: CIDRMask.loop l 0

/-- Go's `net.CIDRMask(ones, bits)`. -/
def CIDRMask (ones bits : Nat) : IPMask :=
  if bits ≠ 8 * IPv4len ∧ bits ≠ 8 * IPv6len then []
  else if ones > bits then []
  else CIDRMask.loop (bits / 8) ones

/-- Go's `IP.To4`: the 4-byte form of an IPv4 address, `[]` (nil) for any other. -/
def To4 (ip : IP) : IP :=
  if ip.length = IPv4len then ip
  else if ip.length = IPv6len ∧ (ip.take 10).all (· == 0) ∧ ip[10]? = some 0xff
      ∧ ip[11]? = some 0xff then
    (ip.drop 12).take 4
  else []

/-- Go's `IP.Mask`: the address with the mask applied, `[]` (nil) on a length mismatch. -/
def IP.Mask (ip : IP) (mask : IPMask) : IP :=
  let mask1 :=
    if mask.length = IPv6len ∧ ip.length = IPv4len ∧ (mask.take 12).all (· == 0xff) then
      mask.drop 12
    else mask
  let ip1 :=
    if mask1.length = IPv4len ∧ ip.length = IPv6len ∧ ip.take 12 = v4InV6Prefix then
      ip.drop 12
    else ip
  if ip1.length ≠ mask1.length then []
  else List.zipWith (· &&& ·) ip1 mask1

/-- Go's `net.IPNet`: the masked network number and its mask. -/
structure IPNet where
  IP : Greip.IP
  Mask : IPMask
deriving Repr, DecidableEq

/-- Go's `net.ParseCIDR`, its `*IPNet` result (`none` when it returns an error). -/
def ParseCIDR (parseIPv6 : List Char → Option (List Nat)) (s : List Char) : Option IPNet :=
  match s.indexOf? '/' with
  | none => none
  | some i =>
    let addr := s.take i
    let mask := s.drop (i + 1)
    match ParseAddr parseIPv6 addr with
    | none => none
    | some ipAddr =>
      let (n, j, ok) := dtoi mask
      if !ok || j ≠ mask.length || n > ipAddr.BitLen then none
      else
        let m := CIDRMask n ipAddr.BitLen
        some { IP := IP.Mask ipAddr.As16 m, Mask := m }

/-- Go's `net.networkNumberAndMask`; `([], [])` stands for `(nil, nil)`. -/
def networkNumberAndMask (n : IPNet) : Greip.IP × IPMask :=
  let ip4 := To4 n.IP
  if ip4 = [] ∧ n.IP.length ≠ IPv6len then ([], [])
  else
    let ip := if ip4 = [] then n.IP else ip4
    if n.Mask.length = IPv4len then
      if ip.length ≠ IPv4len then ([], []) else (ip, n.Mask)
    else if n.Mask.length = IPv6len then
      if ip.length = IPv4len then (ip, n.Mask.drop 12) else (ip, n.Mask)
    else ([], [])

/-- Go's `IPNet.Contains`. -/
def IPNet.Contains (n : IPNet) (ip : Greip.IP) : Bool :=
  let nm := networkNumberAndMask n
  let x := To4 ip
  let ip1 := if x ≠ [] then x else ip
  if ip1.length ≠ nm.1.length then false
  else (List.zip (List.zip nm.1 ip1) nm.2).all fun b => (b.1.1 &&& b.2) == (b.1.2 &&& b.2)

/-! ## `main.go` -/

deriving instance DecidableEq for Except

/-- The function `isIPInRange` (lines 13-25): `.ok b` for `(b, nil)`, `.error msg` for
`(false, err)` with `msg` the text of `err`. -/
def isIPInRange (parseIPv6 : List Char → Option (List Nat)) (ipStr cidr : List Char) :
    Except (List Char) Bool :=
  match ParseIP parseIPv6 ipStr with
  | none => .error ("Invalid IP address: ".toList ++ ipStr)
  | some ip =>
    match ParseCIDR parseIPv6 cidr with
    | none => .error ("Invalid CIDR range: ".toList ++ cidr)
    | some ipNet => .ok (ipNet.Contains ip)

/-- Go's `unicode.IsSpace`: the white space that `strings.TrimSpace` removes. -/
def isSpace (c : Char) : Bool :=
  let n := c.toNat
  n == 0x09 || n == 0x0A || n == 0x0B || n == 0x0C || n == 0x0D || n == 0x20
    || n == 0x85 || n == 0xA0 || n == 0x1680 || (0x2000 ≤ n && n ≤ 0x200A)
    || n == 0x2028 || n == 0x2029 || n == 0x202F || n == 0x205F || n == 0x3000

/-- Go's `strings.TrimSpace`: leading and trailing white space removed. -/
def TrimSpace (s : List Char) : List Char :=
  ((s.dropWhile isSpace).reverse.dropWhile isSpace).reverse

/-- The range-loading loop of `main` (lines 51-57) over the lines the scanner
delivers, `cidrs` being the slice built so far. -/
def loadCidrs : List (List Char) → List (List Char) → List (List Char)
  | [], cidrs => cidrs
  | text :: rest, cidrs =>
    let cidr := TrimSpace text
    if cidr ≠ [] then loadCidrs rest (cidrs ++ [cidr]) else loadCidrs rest cidrs

/-- One `fmt.Printf` of the log-processing loop, by the statement that issues it. -/
inductive Event where
  /-- Line 85: `fmt.Printf("Error: %v\n", err)`. -/
  | diagnostic : List Char → Event
  /-- Lines 97 and 100: `fmt.Printf("%s\n", ip)`. -/
  | address : List Char → Event
deriving Repr, DecidableEq

/-- The line of standard output an event writes. -/
def Event.line : Event → List Char
  | .diagnostic err => "Error: ".toList ++ err
  | .address ip => ip

/-- The address an event emits, if it is one. -/
def Event.emitted : Event → Option (List Char)
  | .diagnostic _ => none
  | .address ip => some ip

/-- The inner loop of `main` (lines 81-93) for one address: the final value of
`matched` and the diagnostics printed on the way. An error is printed and the
scan continues; the first containing range ends the scan. -/
def matchLoop (parseIPv6 : List Char → Option (List Nat)) (ip : List Char) :
    List (List Char) → Bool × List Event
  | [] => (false, [])
  | cidr :: rest =>
    match isIPInRange parseIPv6 ip cidr with
    | .error err =>
      let r := matchLoop parseIPv6 ip rest
      (r.1, Event.diagnostic err :: r.2)
    | .ok inRange =>
      if inRange then (true, []) else matchLoop parseIPv6 ip rest

/-- The decision of lines 95-101: whether the address is printed. -/
def emitDecision (invertMatch matched : Bool) : Bool :=
  if invertMatch && !matched then true
  else if !invertMatch && matched then true
  else false

/-- The emit decision of `main` for one address against the loaded ranges. -/
def classify (parseIPv6 : List Char → Option (List Nat)) (cidrs : List (List Char))
    (invertMatch : Bool) (ip : List Char) : Bool :=
  emitDecision invertMatch (matchLoop parseIPv6 ip cidrs).1

/-- The body of the loop over `ips` (lines 81-101) for one address. -/
def processIP (parseIPv6 : List Char → Option (List Nat)) (cidrs : List (List Char))
    (invertMatch : Bool) (ip : List Char) : List Event :=
  let r := matchLoop parseIPv6 ip cidrs
  r.2 ++ (if emitDecision invertMatch r.1 then [Event.address ip] else [])

/-- The body of the loop over the log lines (lines 77-103) for one line. -/
def processLine (parseIPv6 : List Char → Option (List Nat)) (cidrs : List (List Char))
    (invertMatch : Bool) (line : List Char) : List Event :=
  (findAllString ipRegex line).flatMap (processIP parseIPv6 cidrs invertMatch)

/-- The log-processing loop of `main` (lines 76-104) over the lines the scanner
delivers: everything it prints, in order. -/
def processLog (parseIPv6 : List Char → Option (List Nat)) (cidrs : List (List Char))
    (invertMatch : Bool) (lines : List (List Char)) : List Event :=
  lines.flatMap (processLine parseIPv6 cidrs invertMatch)

/-- What a `bufio.Scanner` delivers from an opened file: the lines, and the
text of `scanner.Err()` when reading stopped on an error. -/
structure Source where
  lines : List (List Char)
  err : Option (List Char)

/-- The observable result of a run: the lines written to standard output and
the exit status. -/
structure Outcome where
  stdout : List (List Char)
  status : Nat
deriving Repr, DecidableEq

/-- The function `main` (lines 27-110), after `flag.Parse`: `osOpen` gives for a path what
`os.Open` and the scanner yield, or the text of the error of `os.Open`. -/
def main (parseIPv6 : List Char → Option (List Nat)) (logFilePath cidrFilePath : List Char)
    (invertMatch : Bool) (osOpen : List Char → Except (List Char) Source) : Outcome :=
  if logFilePath = [] ∨ cidrFilePath = [] then
    ⟨["Usage: greip -log <logfile> -cidr <cidrfile> [-invert]".toList], 1⟩
  else
    match osOpen cidrFilePath with
    | .error err => ⟨["Error opening CIDR file: ".toList ++ err], 1⟩
    | .ok cidrFile =>
      let cidrs := loadCidrs cidrFile.lines []
      match cidrFile.err with
      | some err => ⟨["Error reading CIDR file: ".toList ++ err], 1⟩
      | none =>
        match osOpen logFilePath with
        | .error err => ⟨["Error opening log file: ".toList ++ err], 1⟩
        | .ok logFile =>
          let out := (processLog parseIPv6 cidrs invertMatch logFile.lines).map Event.line
          match logFile.err with
          | some err => ⟨out ++ ["Error reading log file: ".toList ++ err], 1⟩
          | none => ⟨out, 0⟩

/-- A file system with two readable files, `ranges.txt` and `access.log`, on
which `main` is run at concrete inputs. -/
def twoFiles (cidrLines logLines : List (List Char)) :
    List Char → Except (List Char) Source := fun path =>
  if path = "ranges.txt".toList then .ok ⟨cidrLines, none⟩
  else if path = "access.log".toList then .ok ⟨logLines, none⟩
  else .error "no such file or directory".toList

/-! ## Specification vocabulary -/

/-- The concatenations of `n` words of the language `L`. -/
def iterLang (L : List Char → Prop) : Nat → List Char → Prop
  | 0, w => w = []
  | n + 1, w => ∃ w1 w2, w = w1 ++ w2 ∧ L w1 ∧ iterLang L n w2

/-- The words matched by an expression that has no assertion (`^`, `$`) in it. -/
def Regex.lang : Regex → List Char → Prop
  | .empty, w => w = []
  | .lit c, w => w = [c]
  | .cls lo hi, w => ∃ c, w = [c] ∧ lo ≤ c ∧ c ≤ hi
  | .cat a b, w => ∃ w1 w2, w = w1 ++ w2 ∧ a.lang w1 ∧ b.lang w2
  | .alt a b, w => a.lang w ∨ b.lang w
  | .rep n a, w => iterLang a.lang n w
  | .beginText, _ => False
  | .endText, _ => False

/-- The expression has no assertion in it. -/
def Regex.anchorFree : Regex → Prop
  | .empty => True
  | .lit _ => True
  | .cls _ _ => True
  | .cat a b => a.anchorFree ∧ b.anchorFree
  | .alt a b => a.anchorFree ∧ b.anchorFree
  | .rep _ a => a.anchorFree
  | .beginText => False
  | .endText => False

/-- The word `w` is what the text `t` holds from position `p` up to position `e`. -/
def Span (t : List Char) (p e : Nat) (w : List Char) : Prop :=
  t.drop p = w ++ t.drop e ∧ e = p + w.length

/-- The value of a string of decimal digits. -/
def decimalValue (g : List Char) : Nat :=
  g.foldl (fun n c => 10 * n + (c.toNat - '0'.toNat)) 0

/-- One group of a strict dotted quad: 1 to 3 decimal digits of value at most 255. -/
def isOctetGroup (g : List Char) : Prop :=
  1 ≤ g.length ∧ g.length ≤ 3 ∧ (∀ c ∈ g, '0' ≤ c ∧ c ≤ '9') ∧ decimalValue g ≤ 255

instance isOctetGroup.decidable (g : List Char) : Decidable (isOctetGroup g) :=
  inferInstanceAs (Decidable (1 ≤ g.length ∧ g.length ≤ 3
    ∧ (∀ c ∈ g, '0' ≤ c ∧ c ≤ '9') ∧ decimalValue g ≤ 255))

/-- The canonical text of the IPv4 address with the bytes `a`, `b`, `c`, `d`:
four decimal numbers without leading zeros, separated by dots. -/
def dottedQuad (a b c d : Nat) : List Char :=
  Nat.toDigits 10 a ++ '.' :: (Nat.toDigits 10 b ++ '.' :: (Nat.toDigits 10 c
    ++ '.' :: Nat.toDigits 10 d))

/-- The 32-bit value of the IPv4 address with the bytes `a`, `b`, `c`, `d`. -/
def addr32 (a b c d : Nat) : Nat := a * 2 ^ 24 + b * 2 ^ 16 + c * 2 ^ 8 + d

/-- The canonical text `base/n` of an IPv4 range. -/
def cidrText (b0 b1 b2 b3 n : Nat) : List Char :=
  dottedQuad b0 b1 b2 b3 ++ '/' :: Nat.toDigits 10 n

/-- One group of a dotted quad written without a leading zero: a group of more
than one digit does not start with `0` (the single digit `0` is allowed). -/
def isCanonicalOctet (g : List Char) : Prop :=
  isOctetGroup g ∧ (1 < g.length → g.head? ≠ some '0')

instance isCanonicalOctet.decidable (g : List Char) : Decidable (isCanonicalOctet g) :=
  inferInstanceAs (Decidable (isOctetGroup g ∧ (1 < g.length → g.head? ≠ some '0')))

/-- The text `c` is the line `l` without its leading and trailing white space:
`l` is `c` between two runs of white space, and `c` neither starts nor ends
with white space. -/
def isTrimOf (l c : List Char) : Prop :=
  ∃ pre post, l = pre ++ c ++ post
    ∧ (∀ x ∈ pre, isSpace x = true) ∧ (∀ x ∈ post, isSpace x = true)
    ∧ (∀ x, c.head? = some x → isSpace x = false)
    ∧ (∀ x, c.getLast? = some x → isSpace x = false)

/-! ## Properties -/

/-! ## The matcher computes the language -/

theorem getElem?_eq_some_iff_drop (t : List Char) (p : Nat) (c : Char) :
    t[p]? = some c ↔ t.drop p = c :: t.drop (p + 1) := by
  constructor
  · intro h
    obtain ⟨hp, rfl⟩ := List.getElem?_eq_some_iff.1 h
    exact List.drop_eq_getElem_cons hp
  · intro h
    have h0 := congrArg (fun l => l[0]?) h
    simpa [List.getElem?_drop] using h0

theorem Span.nil (t : List Char) (p : Nat) : Span t p p [] := ⟨rfl, rfl⟩

theorem Span.append {t : List Char} {p m e : Nat} {w1 w2 : List Char}
    (h1 : Span t p m w1) (h2 : Span t m e w2) : Span t p e (w1 ++ w2) := by
  obtain ⟨h1a, h1b⟩ := h1
  obtain ⟨h2a, h2b⟩ := h2
  refine ⟨?_, ?_⟩
  · rw [h1a, h2a, List.append_assoc]
  · rw [h2b, h1b, List.length_append, Nat.add_assoc]

theorem Span.split {t : List Char} {p e : Nat} {w1 w2 : List Char}
    (h : Span t p e (w1 ++ w2)) :
    Span t p (p + w1.length) w1 ∧ Span t (p + w1.length) e w2 := by
  obtain ⟨ha, hb⟩ := h
  have hmid : t.drop (p + w1.length) = w2 ++ t.drop e := by
    rw [← List.drop_drop, ha, List.append_assoc, List.drop_left]
  refine ⟨⟨?_, rfl⟩, ⟨hmid, ?_⟩⟩
  · rw [hmid, ha, List.append_assoc]
  · rw [hb, List.length_append, Nat.add_assoc]

theorem Span.single_iff (t : List Char) (p e : Nat) (c : Char) :
    Span t p e [c] ↔ t[p]? = some c ∧ e = p + 1 := by
  unfold Span
  constructor
  · rintro ⟨h, rfl⟩
    exact ⟨(getElem?_eq_some_iff_drop t p c).2 h, rfl⟩
  · rintro ⟨h, rfl⟩
    exact ⟨(getElem?_eq_some_iff_drop t p c).1 h, rfl⟩

theorem mem_iterate_iff (t : List Char) (f : Nat → List Nat) (L : List Char → Prop)
    (hf : ∀ p e, e ∈ f p ↔ ∃ w, L w ∧ Span t p e w) (n p e : Nat) :
    e ∈ iterate f n p ↔ ∃ w, iterLang L n w ∧ Span t p e w := by
  induction n generalizing p with
  | zero =>
    simp only [iterate, iterLang, List.mem_singleton]
    constructor
    · rintro rfl
      exact ⟨[], rfl, Span.nil t e⟩
    · rintro ⟨w, rfl, h⟩
      exact h.2
  | succ n ih =>
    simp only [iterate, iterLang, List.mem_flatMap]
    constructor
    · rintro ⟨m, hm, he⟩
      obtain ⟨w1, hw1, hs1⟩ := (hf p m).1 hm
      obtain ⟨w2, hw2, hs2⟩ := (ih m).1 he
      exact ⟨w1 ++ w2, ⟨w1, w2, rfl, hw1, hw2⟩, hs1.append hs2⟩
    · rintro ⟨w, ⟨w1, w2, rfl, hw1, hw2⟩, hs⟩
      obtain ⟨hs1, hs2⟩ := hs.split
      exact ⟨p + w1.length, (hf p _).2 ⟨w1, hw1, hs1⟩, (ih _).2 ⟨w2, hw2, hs2⟩⟩

/-- The matcher is sound and complete for the language of an expression
without assertions. -/
theorem mem_ends_iff (r : Regex) (hr : r.anchorFree) (t : List Char) (p e : Nat) :
    e ∈ r.ends t p ↔ ∃ w, r.lang w ∧ Span t p e w := by
  induction r generalizing p e with
  | empty =>
    simp only [Regex.ends, Regex.lang, List.mem_singleton]
    constructor
    · rintro rfl
      exact ⟨[], rfl, Span.nil t e⟩
    · rintro ⟨w, rfl, h⟩
      exact h.2
  | lit c =>
    simp only [Regex.ends, Regex.lang]
    constructor
    · intro h
      split at h
      · next hc =>
        rw [List.mem_singleton] at h
        exact ⟨[c], rfl, (Span.single_iff t p e c).2 ⟨hc, h⟩⟩
      · simp at h
    · rintro ⟨w, rfl, h⟩
      obtain ⟨hc, rfl⟩ := (Span.single_iff t p e c).1 h
      simp [hc]
  | cls lo hi =>
    simp only [Regex.ends, Regex.lang]
    constructor
    · intro h
      split at h
      · next c hc =>
        split at h
        · next hr =>
          rw [List.mem_singleton] at h
          exact ⟨[c], ⟨c, rfl, hr⟩, (Span.single_iff t p e c).2 ⟨hc, h⟩⟩
        · simp at h
      · simp at h
    · rintro ⟨w, ⟨c, rfl, hr⟩, h⟩
      obtain ⟨hc, rfl⟩ := (Span.single_iff t p e c).1 h
      simp [hc, hr]
  | cat a b iha ihb =>
    simp only [Regex.ends, Regex.lang, List.mem_flatMap]
    constructor
    · rintro ⟨m, hm, he⟩
      obtain ⟨w1, hw1, hs1⟩ := (iha hr.1 p m).1 hm
      obtain ⟨w2, hw2, hs2⟩ := (ihb hr.2 m e).1 he
      exact ⟨w1 ++ w2, ⟨w1, w2, rfl, hw1, hw2⟩, hs1.append hs2⟩
    · rintro ⟨w, ⟨w1, w2, rfl, hw1, hw2⟩, hs⟩
      obtain ⟨hs1, hs2⟩ := hs.split
      exact ⟨p + w1.length, (iha hr.1 p _).2 ⟨w1, hw1, hs1⟩, (ihb hr.2 _ e).2 ⟨w2, hw2, hs2⟩⟩
  | alt a b iha ihb =>
    simp only [Regex.ends, Regex.lang, List.mem_append]
    rw [iha hr.1, ihb hr.2]
    constructor
    · rintro (⟨w, hw, hs⟩ | ⟨w, hw, hs⟩)
      · exact ⟨w, Or.inl hw, hs⟩
      · exact ⟨w, Or.inr hw, hs⟩
    · rintro ⟨w, hw | hw, hs⟩
      · exact Or.inl ⟨w, hw, hs⟩
      · exact Or.inr ⟨w, hw, hs⟩
  | rep n a iha =>
    simp only [Regex.ends, Regex.lang]
    exact mem_iterate_iff t _ _ (fun p e => iha hr p e) n p e
  | beginText => exact hr.elim
  | endText => exact hr.elim

/-! ## What `ipRegex` extracts -/

theorem char_le_iff_toNat (a b : Char) : a ≤ b ↔ a.toNat ≤ b.toNat := Iff.rfl

theorem digitChar_of_toNat (c : Char) (d : Nat) (hd : d < 10) (h : c.toNat = 48 + d) :
    c = Nat.digitChar d := by
  have hc : c = Char.ofNat (48 + d) := by rw [← h, Char.ofNat_toNat]
  subst hc
  interval_cases d <;> rfl

/-- A character of a digit class is the digit character of a number in the
bounds of the class. -/
theorem digit_of_class (c lo hi : Char) (h0 : '0' ≤ lo) (h9 : hi ≤ '9') (h1 : lo ≤ c)
    (h2 : c ≤ hi) :
    ∃ d, lo.toNat - 48 ≤ d ∧ d ≤ hi.toNat - 48 ∧ d < 10 ∧ c = Nat.digitChar d := by
  rw [char_le_iff_toNat] at h0 h9 h1 h2
  have e0 : '0'.toNat = 48 := rfl
  have e9 : '9'.toNat = 57 := rfl
  rw [e0] at h0
  rw [e9] at h9
  exact ⟨c.toNat - 48, by omega, by omega, by omega,
    digitChar_of_toNat c _ (by omega) (by omega)⟩

theorem toDigits_one : ∀ d < 10, Nat.toDigits 10 d = [Nat.digitChar d] := by decide

theorem toDigits_two : ∀ d1 < 10, 1 ≤ d1 → ∀ d2 < 10,
    Nat.toDigits 10 (10 * d1 + d2) = [Nat.digitChar d1, Nat.digitChar d2] := by decide

theorem toDigits_three_1 : ∀ d1 < 10, ∀ d2 < 10,
    Nat.toDigits 10 (100 + 10 * d1 + d2) = ['1', Nat.digitChar d1, Nat.digitChar d2] := by
  decide

theorem toDigits_three_2 : ∀ d1 < 5, ∀ d2 < 10,
    Nat.toDigits 10 (200 + 10 * d1 + d2) = ['2', Nat.digitChar d1, Nat.digitChar d2] := by
  decide

theorem toDigits_three_25 : ∀ d < 6,
    Nat.toDigits 10 (250 + d) = ['2', '5', Nat.digitChar d] := by decide

/-- Every word of the octet sub-expression is the canonical decimal text of a
number below 256. -/
theorem octetRegex_lang_sound (w : List Char) (h : octetRegex.lang w) :
    ∃ v, v < 256 ∧ w = Nat.toDigits 10 v := by
  have e0 : '0'.toNat = 48 := rfl
  have e1 : '1'.toNat = 49 := rfl
  have e4 : '4'.toNat = 52 := rfl
  have e5 : '5'.toNat = 53 := rfl
  have e9 : '9'.toNat = 57 := rfl
  simp only [octetRegex, Regex.lang] at h
  rcases h with ⟨_, _, rfl, rfl, _, _, rfl, rfl, c, rfl, h1, h2⟩ |
    ⟨_, _, rfl, (⟨_, _, rfl, rfl, c1, rfl, h1, h2⟩ | ⟨_, _, rfl, rfl, c1, rfl, h1, h2⟩ |
      ⟨c1, rfl, h1, h2⟩ | rfl), c2, rfl, h3, h4⟩
  · obtain ⟨d, -, hd, -, rfl⟩ := digit_of_class c '0' '5' (by decide) (by decide) h1 h2
    rw [e5] at hd
    exact ⟨250 + d, by omega, (toDigits_three_25 d (by omega)).symm⟩
  · obtain ⟨d1, -, hd1, -, rfl⟩ := digit_of_class c1 '0' '4' (by decide) (by decide) h1 h2
    obtain ⟨d2, -, -, hd2, rfl⟩ := digit_of_class c2 '0' '9' (by decide) (by decide) h3 h4
    rw [e4] at hd1
    exact ⟨200 + 10 * d1 + d2, by omega, (toDigits_three_2 d1 (by omega) d2 hd2).symm⟩
  · obtain ⟨d1, -, -, hd1, rfl⟩ := digit_of_class c1 '0' '9' (by decide) (by decide) h1 h2
    obtain ⟨d2, -, -, hd2, rfl⟩ := digit_of_class c2 '0' '9' (by decide) (by decide) h3 h4
    exact ⟨100 + 10 * d1 + d2, by omega, (toDigits_three_1 d1 hd1 d2 hd2).symm⟩
  · obtain ⟨d1, hl, -, hd1, rfl⟩ := digit_of_class c1 '1' '9' (by decide) (by decide) h1 h2
    obtain ⟨d2, -, -, hd2, rfl⟩ := digit_of_class c2 '0' '9' (by decide) (by decide) h3 h4
    rw [e1] at hl
    exact ⟨10 * d1 + d2, by omega, (toDigits_two d1 hd1 (by omega) d2 hd2).symm⟩
  · obtain ⟨d2, -, -, hd2, rfl⟩ := digit_of_class c2 '0' '9' (by decide) (by decide) h3 h4
    exact ⟨d2, by omega, (toDigits_one d2 hd2).symm⟩

theorem octetRegex_anchorFree : octetRegex.anchorFree := by
  simp [octetRegex, Regex.anchorFree]

theorem ipRegex_ends_of_pos (t : List Char) (p : Nat) (hp : 0 < p) :
    ipRegex.ends t p = [] := by
  have h : p ≠ 0 := by omega
  simp [ipRegex, Regex.ends, h]

/-- A match of `ipRegex` starts at position 0, ends at the end of the text, and
the text is a canonical dotted quad. -/
theorem ipRegex_ends_sound (t : List Char) (p e : Nat) (h : e ∈ ipRegex.ends t p) :
    p = 0 ∧ e = t.length ∧
      ∃ a b c d, a < 256 ∧ b < 256 ∧ c < 256 ∧ d < 256 ∧ t = dottedQuad a b c d := by
  have hfree : (Regex.rep 3 (Regex.cat octetRegex (Regex.lit '.'))).anchorFree := by
    simp [Regex.anchorFree, octetRegex_anchorFree]
  rw [ipRegex, Regex.ends, List.mem_flatMap] at h
  obtain ⟨p0, hp0, h⟩ := h
  rw [Regex.ends] at hp0
  split at hp0
  · next hp =>
    rw [List.mem_singleton] at hp0
    subst hp0
    subst hp
    rw [Regex.ends, List.mem_flatMap] at h
    obtain ⟨m1, hm1, h⟩ := h
    rw [Regex.ends, List.mem_flatMap] at h
    obtain ⟨m2, hm2, h⟩ := h
    rw [Regex.ends] at h
    split at h
    · next hend =>
      rw [List.mem_singleton] at h
      subst h
      obtain ⟨w, hw, hs⟩ := (mem_ends_iff _ hfree t 0 m1).1 hm1
      obtain ⟨w4, hw4, hs4⟩ := (mem_ends_iff _ octetRegex_anchorFree t m1 e).1 hm2
      simp only [Regex.lang, iterLang] at hw
      obtain ⟨_, _, rfl, ⟨w1, _, rfl, hw1, rfl⟩, _, _, rfl, ⟨w2, _, rfl, hw2, rfl⟩,
        _, _, rfl, ⟨w3, _, rfl, hw3, rfl⟩, rfl⟩ := hw
      obtain ⟨a, ha, rfl⟩ := octetRegex_lang_sound w1 hw1
      obtain ⟨b, hb, rfl⟩ := octetRegex_lang_sound w2 hw2
      obtain ⟨c, hc, rfl⟩ := octetRegex_lang_sound w3 hw3
      obtain ⟨d, hd, rfl⟩ := octetRegex_lang_sound w4 hw4
      refine ⟨rfl, hend, a, b, c, d, ha, hb, hc, hd, ?_⟩
      have ht := (hs.append hs4).1
      rw [hend, List.drop_length, List.drop_zero, List.append_nil] at ht
      rw [ht]
      simp [dottedQuad]
    · simp at h
  · simp at hp0

theorem doExecute_ipRegex_of_pos (t : List Char) (fuel pos : Nat) (hp : 0 < pos) :
    doExecute ipRegex t fuel pos = none := by
  induction fuel generalizing pos with
  | zero => rfl
  | succ n ih =>
    rw [doExecute, ipRegex_ends_of_pos t pos hp]
    exact ih (pos + 1) (by omega)

/-- The extraction of `main`, in closed form: the whole line when the pattern
matches it from its first character, nothing otherwise. -/
theorem findAllString_ipRegex (t : List Char) :
    findAllString ipRegex t = if ipRegex.ends t 0 = [] then [] else [t] := by
  unfold findAllString
  rw [allMatches, if_pos (Nat.zero_le _), Nat.sub_zero, doExecute]
  cases hh : (ipRegex.ends t 0).head? with
  | none =>
    rw [List.head?_eq_none_iff] at hh
    simp [hh, doExecute_ipRegex_of_pos]
  | some e =>
    have hmem : e ∈ ipRegex.ends t 0 := List.mem_of_mem_head? hh
    have hne : ipRegex.ends t 0 ≠ [] := List.ne_nil_of_mem hmem
    obtain ⟨-, he, a, b, c, d, -, -, -, -, ht⟩ := ipRegex_ends_sound t 0 e hmem
    have hlen : 0 < t.length := by
      rw [ht]
      simp [dottedQuad]
    subst he
    have hnil : t ≠ [] := List.ne_nil_of_length_pos hlen
    have hrest : allMatches ipRegex t (t.length + 1) t.length (t.length : Int) = [] := by
      rw [allMatches, if_pos (Nat.le_refl _), doExecute_ipRegex_of_pos t _ _ hlen]
    simp [hne, hnil, hrest]

/-! ## Parsing canonical text -/

theorem toDigits_octet : ∀ v < 256, Nat.toDigits 10 v =
    if v < 10 then [Nat.digitChar v]
    else if v < 100 then [Nat.digitChar (v / 10), Nat.digitChar (v % 10)]
    else [Nat.digitChar (v / 100), Nat.digitChar (v / 10 % 10), Nat.digitChar (v % 10)] := by
  decide!

theorem digitChar_facts : ∀ d < 10, ('0' ≤ Nat.digitChar d ∧ Nat.digitChar d ≤ '9')
    ∧ (Nat.digitChar d).toNat - '0'.toNat = d ∧ Nat.digitChar d ≠ '.'
    ∧ Nat.digitChar d ≠ ':' ∧ Nat.digitChar d ≠ '%' ∧ Nat.digitChar d ≠ '/' := by
  decide

theorem toDigits_octet_chars : ∀ v < 256, ∀ c ∈ Nat.toDigits 10 v,
    c ≠ '.' ∧ c ≠ ':' ∧ c ≠ '%' ∧ c ≠ '/' := by
  decide!

theorem toDigits_octet_length : ∀ v < 256,
    1 ≤ (Nat.toDigits 10 v).length ∧ (Nat.toDigits 10 v).length ≤ 3 := by
  decide!

theorem toDigits_octet_group : ∀ v < 256, isOctetGroup (Nat.toDigits 10 v) := by
  decide!

/-- One round of the field loop on a digit. -/
theorem parseIPv4Fields_loop_digit (len : Nat) (d : Nat) (hd : d < 10) (rest : List Char)
    (i : Nat) (prev : Option Char) (val pos digLen : Nat) (fields : List Nat)
    (hz : ¬ (digLen = 1 ∧ val = 0)) (hv : val * 10 + d ≤ 255) :
    parseIPv4Fields.loop len (Nat.digitChar d :: rest) i prev val pos digLen fields
      = parseIPv4Fields.loop len rest (i + 1) (some (Nat.digitChar d)) (val * 10 + d) pos
          (digLen + 1) fields := by
  obtain ⟨hr, hval, -⟩ := digitChar_facts d hd
  rw [parseIPv4Fields.loop, if_pos hr, if_neg hz]
  simp only [hval]
  rw [if_neg (by omega)]

/-- The field loop reads the canonical text of a byte into `val`. -/
theorem parseIPv4Fields_loop_octet (len : Nat) (v : Nat) (hv : v < 256) (rest : List Char)
    (i : Nat) (prev : Option Char) (pos : Nat) (fields : List Nat) :
    ∃ c k, c ≠ '.' ∧ k = (Nat.toDigits 10 v).length ∧
      parseIPv4Fields.loop len (Nat.toDigits 10 v ++ rest) i prev 0 pos 0 fields
        = parseIPv4Fields.loop len rest (i + k) (some c) v pos k fields := by
  rw [toDigits_octet v hv]
  by_cases h1 : v < 10
  · rw [if_pos h1]
    refine ⟨Nat.digitChar v, 1, (digitChar_facts v h1).2.2.1, rfl, ?_⟩
    rw [List.singleton_append, parseIPv4Fields_loop_digit len v h1 _ _ _ _ _ _ _ (by omega)
      (by omega)]
    simp
  · rw [if_neg h1]
    by_cases h2 : v < 100
    · rw [if_pos h2]
      refine ⟨Nat.digitChar (v % 10), 2, (digitChar_facts _ (by omega)).2.2.1, rfl, ?_⟩
      rw [List.cons_append, List.singleton_append,
        parseIPv4Fields_loop_digit len (v / 10) (by omega) _ _ _ _ _ _ _ (by omega) (by omega),
        parseIPv4Fields_loop_digit len (v % 10) (by omega) _ _ _ _ _ _ _ (by omega) (by omega)]
      have e : (0 * 10 + v / 10) * 10 + v % 10 = v := by omega
      rw [e]
    · rw [if_neg h2]
      refine ⟨Nat.digitChar (v % 10), 3, (digitChar_facts _ (by omega)).2.2.1, rfl, ?_⟩
      rw [List.cons_append, List.cons_append, List.singleton_append,
        parseIPv4Fields_loop_digit len (v / 100) (by omega) _ _ _ _ _ _ _ (by omega) (by omega),
        parseIPv4Fields_loop_digit len (v / 10 % 10) (by omega) _ _ _ _ _ _ _ (by omega)
          (by omega),
        parseIPv4Fields_loop_digit len (v % 10) (by omega) _ _ _ _ _ _ _ (by omega) (by omega)]
      have e : ((0 * 10 + v / 100) * 10 + v / 10 % 10) * 10 + v % 10 = v := by omega
      rw [e]

/-- One round of the field loop on a dot that follows a digit. -/
theorem parseIPv4Fields_loop_dot (len : Nat) (rest : List Char) (i : Nat) (c : Char)
    (val pos digLen : Nat) (fields : List Nat) (hc : c ≠ '.') (hi0 : i ≠ 0)
    (hi1 : i ≠ len - 1) (hpos : pos ≠ 3) :
    parseIPv4Fields.loop len ('.' :: rest) i (some c) val pos digLen fields
      = parseIPv4Fields.loop len rest (i + 1) (some '.') 0 (pos + 1) 0
          (fields.set pos (val % 256)) := by
  have hnd : ¬ ('0' ≤ '.' ∧ '.' ≤ '9') := by decide
  have hprev : ¬ (i = 0 ∨ i = len - 1 ∨ some c = some '.') := by
    simp [hi0, hi1, hc]
  rw [parseIPv4Fields.loop, if_neg hnd, if_pos rfl, if_neg hprev, if_neg hpos]

/-- Go's `netip.parseIPv4` reads a canonical dotted quad back into its four bytes. -/
theorem parseIPv4_dottedQuad (a b c d : Nat) (ha : a < 256) (hb : b < 256) (hc : c < 256)
    (hd : d < 256) : parseIPv4 (dottedQuad a b c d) = some [a, b, c, d] := by
  unfold parseIPv4
  generalize hlen : (dottedQuad a b c d).length = len
  unfold dottedQuad at hlen ⊢
  simp only [List.length_append, List.length_cons] at hlen
  obtain ⟨ca, ka, hca, hka, ea⟩ := parseIPv4Fields_loop_octet len a ha
    ('.' :: (Nat.toDigits 10 b ++ '.' :: (Nat.toDigits 10 c ++ '.' :: Nat.toDigits 10 d)))
    0 none 0 [0, 0, 0, 0]
  have la := toDigits_octet_length a ha
  have lb := toDigits_octet_length b hb
  have lc := toDigits_octet_length c hc
  have ld := toDigits_octet_length d hd
  rw [ea, parseIPv4Fields_loop_dot len _ _ ca _ _ _ _ hca (by omega) (by omega) (by omega)]
  obtain ⟨cb, kb, hcb, hkb, eb⟩ := parseIPv4Fields_loop_octet len b hb
    ('.' :: (Nat.toDigits 10 c ++ '.' :: Nat.toDigits 10 d))
    (0 + ka + 1) (some '.') (0 + 1) ([0, 0, 0, 0].set 0 (a % 256))
  rw [eb, parseIPv4Fields_loop_dot len _ _ cb _ _ _ _ hcb (by omega) (by omega) (by omega)]
  obtain ⟨cc, kc, hcc, hkc, ec⟩ := parseIPv4Fields_loop_octet len c hc
    ('.' :: Nat.toDigits 10 d)
    (0 + ka + 1 + kb + 1) (some '.') (0 + 1 + 1)
    (([0, 0, 0, 0].set 0 (a % 256)).set (0 + 1) (b % 256))
  rw [ec, parseIPv4Fields_loop_dot len _ _ cc _ _ _ _ hcc (by omega) (by omega) (by omega)]
  obtain ⟨cd, kd, hcd, hkd, ed⟩ := parseIPv4Fields_loop_octet len d hd []
    (0 + ka + 1 + kb + 1 + kc + 1) (some '.') (0 + 1 + 1 + 1)
    ((([0, 0, 0, 0].set 0 (a % 256)).set (0 + 1) (b % 256)).set (0 + 1 + 1) (c % 256))
  rw [List.append_nil] at ed
  rw [ed, parseIPv4Fields.loop]
  simp [Nat.mod_eq_of_lt ha, Nat.mod_eq_of_lt hb, Nat.mod_eq_of_lt hc, Nat.mod_eq_of_lt hd]

theorem ParseAddr_scan_digits (parseIPv6 : List Char → Option (List Nat)) (s pre rest : List Char)
    (hpre : ∀ c ∈ pre, c ≠ '.' ∧ c ≠ ':' ∧ c ≠ '%' ∧ c ≠ '/') :
    ParseAddr.scan parseIPv6 s (pre ++ '.' :: rest) = (parseIPv4 s).map Addr.v4 := by
  induction pre with
  | nil => simp [ParseAddr.scan]
  | cons c pre ih =>
    obtain ⟨h1, h2, h3, -⟩ := hpre c (List.mem_cons_self _ _)
    rw [List.cons_append, ParseAddr.scan, if_neg h1, if_neg h2, if_neg h3]
    exact ih fun x hx => hpre x (List.mem_cons_of_mem _ hx)

/-- Go's `netip.ParseAddr` on a canonical dotted quad: the IPv4 address of its bytes,
whatever the IPv6 branch does. -/
theorem ParseAddr_dottedQuad (parseIPv6 : List Char → Option (List Nat)) (a b c d : Nat)
    (ha : a < 256) (hb : b < 256) (hc : c < 256) (hd : d < 256) :
    ParseAddr parseIPv6 (dottedQuad a b c d) = some (Addr.v4 [a, b, c, d]) := by
  unfold ParseAddr
  have h := ParseAddr_scan_digits parseIPv6 (dottedQuad a b c d) (Nat.toDigits 10 a)
    (Nat.toDigits 10 b ++ '.' :: (Nat.toDigits 10 c ++ '.' :: Nat.toDigits 10 d))
    (toDigits_octet_chars a ha)
  rw [parseIPv4_dottedQuad a b c d ha hb hc hd] at h
  exact h

theorem ParseIP_dottedQuad (parseIPv6 : List Char → Option (List Nat)) (a b c d : Nat)
    (ha : a < 256) (hb : b < 256) (hc : c < 256) (hd : d < 256) :
    ParseIP parseIPv6 (dottedQuad a b c d) = some (v4InV6Prefix ++ [a, b, c, d]) := by
  rw [ParseIP, ParseAddr_dottedQuad parseIPv6 a b c d ha hb hc hd]
  rfl

/-! ## Containment -/

theorem findIdx?_append_cons (q : Char → Bool) (pre rest : List Char) (x : Char) (i : Nat)
    (hpre : ∀ c ∈ pre, q c = false) (hx : q x = true) :
    List.findIdx? q (pre ++ x :: rest) i = some (i + pre.length) := by
  induction pre generalizing i with
  | nil => simp [List.findIdx?, hx]
  | cons c pre ih =>
    have hc : q c = false := hpre c (List.mem_cons_self _ _)
    rw [List.cons_append, List.findIdx?, hc]
    simp only [Bool.false_eq_true, if_false]
    rw [ih (i + 1) fun y hy => hpre y (List.mem_cons_of_mem _ hy)]
    simp only [List.length_cons]
    congr 1
    omega

theorem dottedQuad_no_slash (a b c d : Nat) (ha : a < 256) (hb : b < 256) (hc : c < 256)
    (hd : d < 256) : ∀ x ∈ dottedQuad a b c d, (x == '/') = false := by
  intro x hx
  have hdot : ('.' == '/') = false := by decide
  simp only [dottedQuad, List.mem_append, List.mem_cons] at hx
  have key : ∀ v < 256, x ∈ Nat.toDigits 10 v → (x == '/') = false := by
    intro v hv hmem
    have := (toDigits_octet_chars v hv x hmem).2.2.2
    simpa using this
  rcases hx with h | rfl | h | rfl | h | rfl | h
  · exact key a ha h
  · exact hdot
  · exact key b hb h
  · exact hdot
  · exact key c hc h
  · exact hdot
  · exact key d hd h

theorem dtoi_prefixLen : ∀ n ≤ 32,
    dtoi (Nat.toDigits 10 n) = (n, (Nat.toDigits 10 n).length, true) := by
  decide!

/-- Go's `net.ParseCIDR` on the canonical text of an IPv4 range `base/n`. -/
theorem ParseCIDR_cidrText (parseIPv6 : List Char → Option (List Nat)) (b0 b1 b2 b3 n : Nat)
    (h0 : b0 < 256) (h1 : b1 < 256) (h2 : b2 < 256) (h3 : b3 < 256) (hn : n ≤ 32) :
    ParseCIDR parseIPv6 (cidrText b0 b1 b2 b3 n)
      = some { IP := IP.Mask (v4InV6Prefix ++ [b0, b1, b2, b3]) (CIDRMask n 32),
               Mask := CIDRMask n 32 } := by
  have hidx : (cidrText b0 b1 b2 b3 n).indexOf? '/' = some (dottedQuad b0 b1 b2 b3).length := by
    unfold cidrText List.indexOf?
    rw [findIdx?_append_cons _ _ _ _ 0 (dottedQuad_no_slash b0 b1 b2 b3 h0 h1 h2 h3) (by decide)]
    simp
  have htake : (cidrText b0 b1 b2 b3 n).take (dottedQuad b0 b1 b2 b3).length
      = dottedQuad b0 b1 b2 b3 := by
    unfold cidrText
    exact List.take_left _ _
  have hdrop : (cidrText b0 b1 b2 b3 n).drop ((dottedQuad b0 b1 b2 b3).length + 1)
      = Nat.toDigits 10 n := by
    unfold cidrText
    rw [← List.drop_drop, List.drop_left]
    rfl
  unfold ParseCIDR
  simp only [hidx, htake, hdrop, ParseAddr_dottedQuad parseIPv6 b0 b1 b2 b3 h0 h1 h2 h3,
    dtoi_prefixLen n hn, Addr.BitLen, Addr.As16]
  simp [Nat.not_lt.2 hn]

/-- Go's `IPNet.Contains` for an IPv4 network and an IPv4 address, byte by byte. -/
theorem Contains_v4 (a0 a1 a2 a3 b0 b1 b2 b3 m0 m1 m2 m3 : Nat) :
    IPNet.Contains
        { IP := IP.Mask (v4InV6Prefix ++ [b0, b1, b2, b3]) [m0, m1, m2, m3],
          Mask := [m0, m1, m2, m3] }
        (v4InV6Prefix ++ [a0, a1, a2, a3])
      = decide (((b0 &&& m0) &&& m0 = a0 &&& m0) ∧ ((b1 &&& m1) &&& m1 = a1 &&& m1)
          ∧ ((b2 &&& m2) &&& m2 = a2 &&& m2) ∧ ((b3 &&& m3) &&& m3 = a3 &&& m3)) := by
  simp [IPNet.Contains, networkNumberAndMask, IP.Mask, To4, v4InV6Prefix, IPv4len, IPv6len]
  rfl

theorem land_mask_0 (x : Nat) : x &&& 0 = 0 := Nat.and_zero x
theorem land_mask_128 : ∀ x < 256, x &&& 128 = x / 128 * 128 := by decide!
theorem land_mask_192 : ∀ x < 256, x &&& 192 = x / 64 * 64 := by decide!
theorem land_mask_224 : ∀ x < 256, x &&& 224 = x / 32 * 32 := by decide!
theorem land_mask_240 : ∀ x < 256, x &&& 240 = x / 16 * 16 := by decide!
theorem land_mask_248 : ∀ x < 256, x &&& 248 = x / 8 * 8 := by decide!
theorem land_mask_252 : ∀ x < 256, x &&& 252 = x / 4 * 4 := by decide!
theorem land_mask_254 : ∀ x < 256, x &&& 254 = x / 2 * 2 := by decide!
theorem land_mask_255 : ∀ x < 256, x &&& 255 = x := by decide!

theorem land_land_self (x m : Nat) : (x &&& m) &&& m = x &&& m := by
  rw [Nat.land_assoc, Nat.and_self]

/-- The mask of prefix length `n` compares exactly the top `n` bits. -/
theorem CIDRMask_top_bits (n : Nat) (hn : n ≤ 32) :
    ∃ m0 m1 m2 m3, CIDRMask n 32 = [m0, m1, m2, m3] ∧
      ∀ a0 a1 a2 a3 b0 b1 b2 b3 : Nat, a0 < 256 → a1 < 256 → a2 < 256 → a3 < 256 →
        b0 < 256 → b1 < 256 → b2 < 256 → b3 < 256 →
        ((((b0 &&& m0) &&& m0 = a0 &&& m0) ∧ ((b1 &&& m1) &&& m1 = a1 &&& m1)
          ∧ ((b2 &&& m2) &&& m2 = a2 &&& m2) ∧ ((b3 &&& m3) &&& m3 = a3 &&& m3))
        ↔ addr32 a0 a1 a2 a3 / 2 ^ (32 - n) = addr32 b0 b1 b2 b3 / 2 ^ (32 - n)) := by
  interval_cases n <;>
    refine ⟨_, _, _, _, rfl, ?_⟩ <;>
    intro a0 a1 a2 a3 b0 b1 b2 b3 ha0 ha1 ha2 ha3 hb0 hb1 hb2 hb3 <;>
    simp only [land_land_self] <;>
    simp only [addr32, Nat.reduceXor, Nat.reduceShiftRight, Nat.reduceSub,
      Nat.reducePow, land_mask_0, land_mask_128 _ ha0, land_mask_128 _ ha1,
      land_mask_128 _ ha2, land_mask_128 _ ha3, land_mask_128 _ hb0, land_mask_128 _ hb1,
      land_mask_128 _ hb2, land_mask_128 _ hb3, land_mask_192 _ ha0, land_mask_192 _ ha1,
      land_mask_192 _ ha2, land_mask_192 _ ha3, land_mask_192 _ hb0, land_mask_192 _ hb1,
      land_mask_192 _ hb2, land_mask_192 _ hb3, land_mask_224 _ ha0, land_mask_224 _ ha1,
      land_mask_224 _ ha2, land_mask_224 _ ha3, land_mask_224 _ hb0, land_mask_224 _ hb1,
      land_mask_224 _ hb2, land_mask_224 _ hb3, land_mask_240 _ ha0, land_mask_240 _ ha1,
      land_mask_240 _ ha2, land_mask_240 _ ha3, land_mask_240 _ hb0, land_mask_240 _ hb1,
      land_mask_240 _ hb2, land_mask_240 _ hb3, land_mask_248 _ ha0, land_mask_248 _ ha1,
      land_mask_248 _ ha2, land_mask_248 _ ha3, land_mask_248 _ hb0, land_mask_248 _ hb1,
      land_mask_248 _ hb2, land_mask_248 _ hb3, land_mask_252 _ ha0, land_mask_252 _ ha1,
      land_mask_252 _ ha2, land_mask_252 _ ha3, land_mask_252 _ hb0, land_mask_252 _ hb1,
      land_mask_252 _ hb2, land_mask_252 _ hb3, land_mask_254 _ ha0, land_mask_254 _ ha1,
      land_mask_254 _ ha2, land_mask_254 _ ha3, land_mask_254 _ hb0, land_mask_254 _ hb1,
      land_mask_254 _ hb2, land_mask_254 _ hb3, land_mask_255 _ ha0, land_mask_255 _ ha1,
      land_mask_255 _ ha2, land_mask_255 _ ha3, land_mask_255 _ hb0, land_mask_255 _ hb1,
      land_mask_255 _ hb2, land_mask_255 _ hb3] <;>
    refine ⟨fun h => ?_, fun h => ?_⟩ <;>
    (try simp only [and_true, true_and] at *) <;>
    (first | exact True.intro | omega)

/-- Whatever `ipRegex` extracts from a line is the whole line, and the line is
a canonical dotted quad. -/
theorem extracted_dottedQuad (line s : List Char) (h : s ∈ findAllString ipRegex line) :
    s = line ∧ ∃ a b c d, a < 256 ∧ b < 256 ∧ c < 256 ∧ d < 256 ∧ s = dottedQuad a b c d := by
  rw [findAllString_ipRegex] at h
  split at h
  · simp at h
  · next hne =>
    rw [List.mem_singleton] at h
    subst h
    obtain ⟨e, he⟩ := List.exists_mem_of_ne_nil _ hne
    obtain ⟨-, -, hq⟩ := ipRegex_ends_sound s 0 e he
    exact ⟨rfl, hq⟩

/-- C8. Every extracted token is a strict dotted quad: four groups of 1 to 3
decimal digits, each of value at most 255, separated by three dots. -/
theorem extracted_strict_dotted_quad (line s : List Char)
    (h : s ∈ findAllString ipRegex line) :
    ∃ g1 g2 g3 g4 : List Char, s = g1 ++ '.' :: (g2 ++ '.' :: (g3 ++ '.' :: g4))
      ∧ isOctetGroup g1 ∧ isOctetGroup g2 ∧ isOctetGroup g3 ∧ isOctetGroup g4 := by
  obtain ⟨-, a, b, c, d, ha, hb, hc, hd, rfl⟩ := extracted_dottedQuad line s h
  exact ⟨Nat.toDigits 10 a, Nat.toDigits 10 b, Nat.toDigits 10 c, Nat.toDigits 10 d, rfl,
    toDigits_octet_group a ha, toDigits_octet_group b hb, toDigits_octet_group c hc,
    toDigits_octet_group d hd⟩

theorem extracted_strict_dotted_quad_witness :
    "192.168.1.1".toList ∈ findAllString ipRegex "192.168.1.1".toList
      ∧ ∃ g1 g2 g3 g4 : List Char,
          "192.168.1.1".toList = g1 ++ '.' :: (g2 ++ '.' :: (g3 ++ '.' :: g4))
          ∧ isOctetGroup g1 ∧ isOctetGroup g2 ∧ isOctetGroup g3 ∧ isOctetGroup g4 :=
  ⟨by decide, extracted_strict_dotted_quad "192.168.1.1".toList "192.168.1.1".toList
    (by decide)⟩

theorem octetRegex_lang_complete (v : Nat) (hv : v < 256) :
    octetRegex.lang (Nat.toDigits 10 v) := by
  have hd : ∀ v < 256, (Nat.toDigits 10 v).length ∈ octetRegex.ends (Nat.toDigits 10 v) 0 := by
    decide!
  obtain ⟨w, hw, hs⟩ := (mem_ends_iff _ octetRegex_anchorFree _ 0 _).1 (hd v hv)
  have ht := hs.1
  rw [List.drop_length, List.drop_zero, List.append_nil] at ht
  rw [ht]
  exact hw

/-- On a canonical dotted quad the pattern matches from the first character to
the end of the text. -/
theorem ipRegex_ends_complete (a b c d : Nat) (ha : a < 256) (hb : b < 256) (hc : c < 256)
    (hd : d < 256) :
    (dottedQuad a b c d).length ∈ ipRegex.ends (dottedQuad a b c d) 0 := by
  have hfree : (Regex.rep 3 (Regex.cat octetRegex (Regex.lit '.'))).anchorFree := by
    simp [Regex.anchorFree, octetRegex_anchorFree]
  generalize ht : dottedQuad a b c d = t
  have hsplit : t = ((Nat.toDigits 10 a ++ ['.']) ++ ((Nat.toDigits 10 b ++ ['.'])
      ++ ((Nat.toDigits 10 c ++ ['.']) ++ []))) ++ Nat.toDigits 10 d := by
    rw [← ht]
    simp [dottedQuad]
  generalize hw : ((Nat.toDigits 10 a ++ ['.']) ++ ((Nat.toDigits 10 b ++ ['.'])
      ++ ((Nat.toDigits 10 c ++ ['.']) ++ []))) = w at hsplit
  have hlang : (Regex.rep 3 (Regex.cat octetRegex (Regex.lit '.'))).lang w := by
    rw [← hw]
    simp only [Regex.lang, iterLang]
    exact ⟨_, _, rfl, ⟨_, _, rfl, octetRegex_lang_complete a ha, rfl⟩,
      _, _, rfl, ⟨_, _, rfl, octetRegex_lang_complete b hb, rfl⟩,
      _, _, rfl, ⟨_, _, rfl, octetRegex_lang_complete c hc, rfl⟩, rfl⟩
  have hs1 : Span t 0 w.length w := by
    refine ⟨?_, by omega⟩
    rw [hsplit, List.drop_zero, List.drop_left]
  have hs2 : Span t w.length t.length (Nat.toDigits 10 d) := by
    refine ⟨?_, ?_⟩
    · rw [List.drop_length, List.append_nil]
      conv_lhs => rw [hsplit]
      exact List.drop_left _ _
    · rw [hsplit, List.length_append]
  rw [ipRegex, Regex.ends, List.mem_flatMap]
  refine ⟨0, by simp [Regex.ends], ?_⟩
  rw [Regex.ends, List.mem_flatMap]
  refine ⟨w.length, (mem_ends_iff _ hfree t 0 _).2 ⟨w, hlang, hs1⟩, ?_⟩
  rw [Regex.ends, List.mem_flatMap]
  refine ⟨t.length, (mem_ends_iff _ octetRegex_anchorFree t _ _).2
    ⟨_, octetRegex_lang_complete d hd, hs2⟩, ?_⟩
  simp [Regex.ends]

theorem findAllString_dottedQuad (a b c d : Nat) (ha : a < 256) (hb : b < 256) (hc : c < 256)
    (hd : d < 256) : findAllString ipRegex (dottedQuad a b c d) = [dottedQuad a b c d] := by
  rw [findAllString_ipRegex, if_neg]
  exact List.ne_nil_of_mem (ipRegex_ends_complete a b c d ha hb hc hd)

/-- The pattern of line 65 is its four-octet group between the two assertions:
a match of `ipRegex` is a match of the group that starts at position 0 and
ends at the end of the text. -/
theorem ipRegex_ends_eq (t : List Char) (p : Nat) :
    ipRegex.ends t p
      = if p = 0 then (quadRegex.ends t 0).filter (fun e => decide (e = t.length)) else [] := by
  have hend : ∀ l : List Nat, l.flatMap (Regex.endText.ends t)
      = l.filter (fun e => decide (e = t.length)) := by
    intro l
    induction l with
    | nil => rfl
    | cons e l ih =>
      rw [List.flatMap_cons, ih, List.filter_cons]
      by_cases he : e = t.length <;> simp [Regex.ends, he]
  by_cases hp : p = 0
  · subst hp
    have h1 : ipRegex.ends t 0
        = (Regex.beginText.ends t 0).flatMap fun p0 =>
            ((Regex.rep 3 (Regex.cat octetRegex (Regex.lit '.'))).ends t p0).flatMap fun m =>
              (octetRegex.ends t m).flatMap (Regex.endText.ends t) := rfl
    have h2 : quadRegex.ends t 0
        = ((Regex.rep 3 (Regex.cat octetRegex (Regex.lit '.'))).ends t 0).flatMap
            (octetRegex.ends t) := rfl
    have h3 : Regex.beginText.ends t 0 = [0] := rfl
    rw [if_pos rfl, h1, h2, h3, List.flatMap_cons, List.flatMap_nil, List.append_nil, ← hend,
      List.flatMap_assoc]
  · rw [if_neg hp]
    exact ipRegex_ends_of_pos t p (by omega)

theorem quadRegex_anchorFree : quadRegex.anchorFree := by
  simp [quadRegex, Regex.anchorFree, octetRegex_anchorFree]

/-- C2, evaluated on the code at the failing input. With the range list
`10.0.0.0/8` and no inversion, the log line `connect from 10.1.2.3 failed`
yields no extracted address and the loop prints nothing, where the claim has it
print `10.1.2.3`; inverted, the log line `connect from 192.168.1.1 failed`
prints nothing either. The two assertions `^` and `$` of the pattern are what
defeats the extraction: the four-octet group between them, searched for on its
own, finds `10.1.2.3` in the first line. -/
theorem scenario1_prints_nothing :
    findAllString ipRegex "connect from 10.1.2.3 failed".toList = []
      ∧ (fun parseIPv6 => (processLog parseIPv6 ["10.0.0.0/8".toList] false
            ["connect from 10.1.2.3 failed".toList]).map Event.line) = (fun _ => [])
      ∧ (fun parseIPv6 => (processLog parseIPv6 ["10.0.0.0/8".toList] true
            ["connect from 192.168.1.1 failed".toList]).map Event.line) = (fun _ => [])
      ∧ findAllString quadRegex "connect from 10.1.2.3 failed".toList
          = ["10.1.2.3".toList] :=
  ⟨by decide, rfl, rfl, by decide⟩

/-! ## The match loop and the emit decision -/

section Classification

variable (parseIPv6 : List Char → Option (List Nat))

theorem matchLoop_fst_eq_any (ip : List Char) (cidrs : List (List Char)) :
    (matchLoop parseIPv6 ip cidrs).1
      = cidrs.any fun c => decide (isIPInRange parseIPv6 ip c = .ok true) := by
  induction cidrs with
  | nil => rfl
  | cons c rest ih =>
    rw [matchLoop, List.any_cons]
    cases h : isIPInRange parseIPv6 ip c with
    | error err => simpa using ih
    | ok b => cases b <;> simp [ih]

theorem isIPInRange_error_of_parseCIDR_none (ip c : List Char)
    (h : ParseCIDR parseIPv6 c = none) :
    ∃ err, isIPInRange parseIPv6 ip c = .error err := by
  unfold isIPInRange
  cases ParseIP parseIPv6 ip with
  | none => exact ⟨_, rfl⟩
  | some a => simp only [h]; exact ⟨_, rfl⟩

theorem processIP_filterMap_emitted (cidrs : List (List Char)) (invertMatch : Bool)
    (ip : List Char) :
    (processIP parseIPv6 cidrs invertMatch ip).filterMap Event.emitted
      = if classify parseIPv6 cidrs invertMatch ip then [ip] else [] := by
  have hdiag : ∀ cs, (matchLoop parseIPv6 ip cs).2.filterMap Event.emitted = [] := by
    intro cs
    induction cs with
    | nil => rfl
    | cons c rest ih =>
      rw [matchLoop]
      cases isIPInRange parseIPv6 ip c with
      | error err => simpa [Event.emitted] using ih
      | ok b => cases b <;> simp [ih]
  unfold processIP classify
  simp only [List.filterMap_append, hdiag, List.nil_append]
  split <;> simp [Event.emitted]

end Classification

/-- C4. Invert symmetry: for every address and every range list, the emit
decision with `invert = true` is the negation of the decision with
`invert = false`; the decision is `matched` when not inverted and
`!matched` when inverted, so exactly one of the two modes prints the address. -/
theorem classify_invert_symmetry (parseIPv6 : List Char → Option (List Nat))
    (cidrs : List (List Char)) (ip : List Char) :
    classify parseIPv6 cidrs true ip = !classify parseIPv6 cidrs false ip
      ∧ classify parseIPv6 cidrs false ip = (matchLoop parseIPv6 ip cidrs).1
      ∧ classify parseIPv6 cidrs true ip = !(matchLoop parseIPv6 ip cidrs).1
      ∧ (Event.address ip ∈ processIP parseIPv6 cidrs true ip
          ↔ Event.address ip ∉ processIP parseIPv6 cidrs false ip) := by
  have hdiag : ∀ cs, Event.address ip ∉ (matchLoop parseIPv6 ip cs).2 := by
    intro cs
    induction cs with
    | nil => simp [matchLoop]
    | cons c rest ih =>
      rw [matchLoop]
      cases isIPInRange parseIPv6 ip c with
      | error err => simpa using ih
      | ok b => cases b <;> simp [ih]
  unfold classify processIP emitDecision
  cases h : (matchLoop parseIPv6 ip cidrs).1 <;> simp [hdiag]

/-- C5. Any-range semantics: the flag `matched` computed by the inner loop
(break on the first hit, continue on an error) is true exactly when some entry
`c` of the list has `isIPInRange(a, c) = (true, nil)`. -/
theorem matched_iff_exists (parseIPv6 : List Char → Option (List Nat))
    (a : List Char) (cidrs : List (List Char)) :
    (matchLoop parseIPv6 a cidrs).1 = true
      ↔ ∃ c ∈ cidrs, isIPInRange parseIPv6 a c = .ok true := by
  rw [matchLoop_fst_eq_any]
  simp [List.any_eq_true]

/-- C7. An unusable range is a non-match and affects nothing else: the emit
decision for an address against a list equals the decision against the list
with every entry that does not parse as CIDR removed. -/
theorem classify_filter_parsable (parseIPv6 : List Char → Option (List Nat))
    (cidrs : List (List Char)) (invertMatch : Bool) (a : List Char) :
    classify parseIPv6 cidrs invertMatch a
      = classify parseIPv6
          (cidrs.filter fun c => (ParseCIDR parseIPv6 c).isSome) invertMatch a := by
  unfold classify
  congr 1
  rw [matchLoop_fst_eq_any, matchLoop_fst_eq_any]
  induction cidrs with
  | nil => rfl
  | cons c rest ih =>
    rw [List.filter_cons]
    cases hc : ParseCIDR parseIPv6 c with
    | none =>
      obtain ⟨err, herr⟩ := isIPInRange_error_of_parseCIDR_none parseIPv6 a c hc
      simp [herr, ih]
    | some n => simp [ih]

/-- C9. Empty range set: with no range loaded the non-inverted run prints
nothing at all, and the inverted run prints exactly the addresses the
extractor produces, each one, in extraction order. -/
theorem processLog_no_ranges (parseIPv6 : List Char → Option (List Nat))
    (lines : List (List Char)) :
    processLog parseIPv6 [] false lines = []
      ∧ processLog parseIPv6 [] true lines
          = (lines.flatMap (findAllString ipRegex)).map Event.address := by
  have h1 : ∀ ip, processIP parseIPv6 [] false ip = [] := fun ip => rfl
  have h2 : ∀ ip, processIP parseIPv6 [] true ip = [Event.address ip] := fun ip => rfl
  constructor
  · induction lines with
    | nil => rfl
    | cons l rest ih =>
      simp only [processLog, List.flatMap_cons] at ih ⊢
      rw [ih]
      simp [processLine, h1]
  · induction lines with
    | nil => rfl
    | cons l rest ih =>
      simp only [processLog, List.flatMap_cons, List.map_append] at ih ⊢
      rw [ih]
      congr 1
      unfold processLine
      generalize findAllString ipRegex l = ips
      induction ips with
      | nil => rfl
      | cons ip ips ih2 => simp [h2, ih2]

/-- C10. Order and multiplicity preservation: the sequence of addresses the
processing loop emits is the concatenation, in line order, of each line's
extracted addresses filtered by the emit decision; it is therefore a
subsequence of the discovery sequence (nothing reordered, nothing merged). -/
theorem processLog_emitted (parseIPv6 : List Char → Option (List Nat))
    (cidrs : List (List Char)) (invertMatch : Bool) (lines : List (List Char)) :
    (processLog parseIPv6 cidrs invertMatch lines).filterMap Event.emitted
        = lines.flatMap (fun line =>
            (findAllString ipRegex line).filter (classify parseIPv6 cidrs invertMatch))
      ∧ List.Sublist
          ((processLog parseIPv6 cidrs invertMatch lines).filterMap Event.emitted)
          (lines.flatMap (findAllString ipRegex)) := by
  have hline : ∀ line,
      (processLine parseIPv6 cidrs invertMatch line).filterMap Event.emitted
        = (findAllString ipRegex line).filter (classify parseIPv6 cidrs invertMatch) := by
    intro line
    unfold processLine
    generalize findAllString ipRegex line = ips
    induction ips with
    | nil => rfl
    | cons ip ips ih =>
      rw [List.flatMap_cons, List.filterMap_append, ih, processIP_filterMap_emitted,
        List.filter_cons]
      split <;> simp
  have hall : (processLog parseIPv6 cidrs invertMatch lines).filterMap Event.emitted
      = lines.flatMap (fun line =>
          (findAllString ipRegex line).filter (classify parseIPv6 cidrs invertMatch)) := by
    unfold processLog
    induction lines with
    | nil => rfl
    | cons l rest ih => rw [List.flatMap_cons, List.filterMap_append, ih, hline, List.flatMap_cons]
  refine ⟨hall, ?_⟩
  rw [hall]
  clear hall
  induction lines with
  | nil => simp
  | cons l rest ih =>
    rw [List.flatMap_cons, List.flatMap_cons]
    exact List.Sublist.append (List.filter_sublist _) ih

/-! ## Containment correctness of `isIPInRange` -/

/-- C1. Containment correctness: for an IPv4 address and an IPv4 range
`base/n` with `n ≤ 32`, both in canonical text, `isIPInRange` returns
`(true, nil)` when the top `n` bits of the address equal the top `n` bits of
the base, and `(false, nil)` otherwise; the host bits of the base are ignored. -/
theorem isIPInRange_containment (parseIPv6 : List Char → Option (List Nat))
    (a0 a1 a2 a3 b0 b1 b2 b3 n : Nat)
    (ha0 : a0 < 256) (ha1 : a1 < 256) (ha2 : a2 < 256) (ha3 : a3 < 256)
    (hb0 : b0 < 256) (hb1 : b1 < 256) (hb2 : b2 < 256) (hb3 : b3 < 256) (hn : n ≤ 32) :
    isIPInRange parseIPv6 (dottedQuad a0 a1 a2 a3) (cidrText b0 b1 b2 b3 n)
      = .ok (decide (addr32 a0 a1 a2 a3 / 2 ^ (32 - n) = addr32 b0 b1 b2 b3 / 2 ^ (32 - n))) := by
  obtain ⟨m0, m1, m2, m3, hm, hbits⟩ := CIDRMask_top_bits n hn
  unfold isIPInRange
  simp only [ParseIP_dottedQuad parseIPv6 a0 a1 a2 a3 ha0 ha1 ha2 ha3,
    ParseCIDR_cidrText parseIPv6 b0 b1 b2 b3 n hb0 hb1 hb2 hb3 hn, hm, Contains_v4]
  congr 1
  exact decide_eq_decide.2 (hbits a0 a1 a2 a3 b0 b1 b2 b3 ha0 ha1 ha2 ha3 hb0 hb1 hb2 hb3)

theorem isIPInRange_containment_witness :
    dottedQuad 10 129 2 3 = "10.129.2.3".toList
      ∧ cidrText 10 128 77 5 9 = "10.128.77.5/9".toList
      ∧ isIPInRange (fun _ => none) (dottedQuad 10 129 2 3) (cidrText 10 128 77 5 9)
          = .ok true :=
  ⟨by decide, by decide,
    (isIPInRange_containment (fun _ => none) 10 129 2 3 10 128 77 5 9 (by decide) (by decide)
      (by decide) (by decide) (by decide) (by decide) (by decide) (by decide)
      (by decide)).trans (by decide)⟩

/-! ## The run as a whole -/

theorem loadCidrs_eq (lines cidrs : List (List Char)) :
    loadCidrs lines cidrs = cidrs ++ (lines.map TrimSpace).filter (fun c => decide (c ≠ [])) := by
  induction lines generalizing cidrs with
  | nil => simp [loadCidrs]
  | cons l rest ih =>
    rw [loadCidrs]
    by_cases h : TrimSpace l = []
    · simp [h, ih]
    · simp [h, ih]

theorem matchLoop_diagnostics (parseIPv6 : List Char → Option (List Nat)) (ip : List Char)
    (cidrs : List (List Char)) (ev : Event) (h : ev ∈ (matchLoop parseIPv6 ip cidrs).2) :
    ∃ c ∈ cidrs, ∃ err, isIPInRange parseIPv6 ip c = .error err ∧ ev = Event.diagnostic err := by
  induction cidrs with
  | nil => simp [matchLoop] at h
  | cons c rest ih =>
    rw [matchLoop] at h
    cases hc : isIPInRange parseIPv6 ip c with
    | error err =>
      rw [hc] at h
      simp only [List.mem_cons] at h
      rcases h with rfl | h
      · exact ⟨c, List.mem_cons_self _ _, err, hc, rfl⟩
      · obtain ⟨c1, hc1, e1, he1, hev⟩ := ih h
        exact ⟨c1, List.mem_cons_of_mem _ hc1, e1, he1, hev⟩
    | ok b =>
      rw [hc] at h
      cases b
      · simp only [Bool.false_eq_true, if_false] at h
        obtain ⟨c1, hc1, e1, he1, hev⟩ := ih h
        exact ⟨c1, List.mem_cons_of_mem _ hc1, e1, he1, hev⟩
      · simp at h

/-- C3, as the code behaves. Range loading parses nothing, so a line that is
not an IP/prefix pair does not abort the run: when both files are opened and
read without error, every log line is processed against all trimmed non-blank
lines of the CIDR file, unparsable ones included, and the exit status is 0. -/
theorem main_unparsable_range_no_abort (parseIPv6 : List Char → Option (List Nat))
    (logFilePath cidrFilePath : List Char) (invertMatch : Bool)
    (osOpen : List Char → Except (List Char) Source) (cidrLines logLines : List (List Char))
    (hlog : logFilePath ≠ []) (hcidr : cidrFilePath ≠ [])
    (hc : osOpen cidrFilePath = .ok ⟨cidrLines, none⟩)
    (hl : osOpen logFilePath = .ok ⟨logLines, none⟩) :
    main parseIPv6 logFilePath cidrFilePath invertMatch osOpen
      = ⟨(processLog parseIPv6 ((cidrLines.map TrimSpace).filter fun c => decide (c ≠ []))
            invertMatch logLines).map Event.line, 0⟩ := by
  unfold main
  rw [if_neg (by simp [hlog, hcidr])]
  simp only [hc, hl, loadCidrs_eq, List.nil_append]

theorem main_unparsable_range_no_abort_witness :
    main (fun _ => none) "access.log".toList "ranges.txt".toList true
        (twoFiles [" not-a-cidr".toList, [], "10.0.0.0/8 ".toList] ["192.168.1.1".toList])
      = ⟨(processLog (fun _ => none)
            (([" not-a-cidr".toList, [], "10.0.0.0/8 ".toList].map TrimSpace).filter
              fun c => decide (c ≠ []))
            true ["192.168.1.1".toList]).map Event.line, 0⟩ :=
  main_unparsable_range_no_abort (fun _ => none) "access.log".toList "ranges.txt".toList true
    _ _ _ (by decide) (by decide) rfl rfl

/-- C3, the claim as stated fails: with the CIDR file lines `not-a-cidr` and
`10.0.0.0/8` and the log line `10.1.2.3`, the first entry does not parse, yet
the run reads the log, prints the address and ends with status 0. -/
theorem malformed_range_line_not_fatal :
    (fun parseIPv6 => ParseCIDR parseIPv6 "not-a-cidr".toList) = (fun _ => none)
      ∧ (fun parseIPv6 => main parseIPv6 "access.log".toList "ranges.txt".toList false
          (twoFiles ["not-a-cidr".toList, "10.0.0.0/8".toList] ["10.1.2.3".toList]))
        = (fun _ => ⟨["Error: Invalid CIDR range: not-a-cidr".toList, "10.1.2.3".toList], 0⟩) :=
  ⟨rfl, rfl⟩

/-- C6, as the code behaves. The loop prints its diagnostics with `fmt.Printf`,
to standard output: every line it writes is either an emitted address, a
canonical dotted quad for which the emit decision is true, or the diagnostic
`Error: Invalid CIDR range: c` of an entry `c` of the range list that does not
parse; when every entry parses, every line written is an emitted address. -/
theorem processLog_output (parseIPv6 : List Char → Option (List Nat))
    (cidrs : List (List Char)) (invertMatch : Bool) (lines : List (List Char)) (ev : Event)
    (h : ev ∈ processLog parseIPv6 cidrs invertMatch lines) :
    ((∃ ip, ev = Event.address ip ∧ ev.line = ip
        ∧ classify parseIPv6 cidrs invertMatch ip = true
        ∧ ∃ a b c d, a < 256 ∧ b < 256 ∧ c < 256 ∧ d < 256 ∧ ip = dottedQuad a b c d)
      ∨ (∃ c ∈ cidrs, ParseCIDR parseIPv6 c = none
        ∧ ev = Event.diagnostic ("Invalid CIDR range: ".toList ++ c)
        ∧ ev.line = "Error: Invalid CIDR range: ".toList ++ c))
    ∧ ((∀ c ∈ cidrs, ParseCIDR parseIPv6 c ≠ none) → ∃ ip, ev = Event.address ip) := by
  have key : (∃ ip, ev = Event.address ip ∧ ev.line = ip
        ∧ classify parseIPv6 cidrs invertMatch ip = true
        ∧ ∃ a b c d, a < 256 ∧ b < 256 ∧ c < 256 ∧ d < 256 ∧ ip = dottedQuad a b c d)
      ∨ (∃ c ∈ cidrs, ParseCIDR parseIPv6 c = none
        ∧ ev = Event.diagnostic ("Invalid CIDR range: ".toList ++ c)
        ∧ ev.line = "Error: Invalid CIDR range: ".toList ++ c) := by
    simp only [processLog, processLine, List.mem_flatMap] at h
    obtain ⟨line, -, ip, hip, hev⟩ := h
    obtain ⟨-, a, b, c, d, ha, hb, hc, hd, hq⟩ := extracted_dottedQuad line ip hip
    rw [processIP, List.mem_append] at hev
    rcases hev with hev | hev
    · right
      obtain ⟨c1, hc1, err, herr, rfl⟩ := matchLoop_diagnostics parseIPv6 ip cidrs ev hev
      refine ⟨c1, hc1, ?_⟩
      rw [isIPInRange, hq, ParseIP_dottedQuad parseIPv6 a b c d ha hb hc hd] at herr
      cases hp : ParseCIDR parseIPv6 c1 with
      | none =>
        rw [hp] at herr
        simp only [Except.error.injEq] at herr
        subst herr
        exact ⟨rfl, rfl, rfl⟩
      | some ipNet =>
        rw [hp] at herr
        simp at herr
    · left
      split at hev
      · next hemit =>
        rw [List.mem_singleton] at hev
        exact ⟨ip, hev, by rw [hev]; rfl, hemit, a, b, c, d, ha, hb, hc, hd, hq⟩
      · simp at hev
  refine ⟨key, fun hall => ?_⟩
  rcases key with ⟨ip, hip, -⟩ | ⟨c, hc, hnone, -⟩
  · exact ⟨ip, hip⟩
  · exact absurd hnone (hall c hc)

theorem processLog_output_witness :
    Event.diagnostic "Invalid CIDR range: 10.0.0.0/33".toList
        ∈ processLog (fun _ => none) ["10.0.0.0/33".toList] true ["10.1.2.3".toList]
      ∧ ((∃ ip, Event.diagnostic "Invalid CIDR range: 10.0.0.0/33".toList = Event.address ip
            ∧ (Event.diagnostic "Invalid CIDR range: 10.0.0.0/33".toList).line = ip
            ∧ classify (fun _ => none) ["10.0.0.0/33".toList] true ip = true
            ∧ ∃ a b c d, a < 256 ∧ b < 256 ∧ c < 256 ∧ d < 256 ∧ ip = dottedQuad a b c d)
        ∨ (∃ c ∈ ["10.0.0.0/33".toList], ParseCIDR (fun _ => none) c = none
            ∧ Event.diagnostic "Invalid CIDR range: 10.0.0.0/33".toList
                = Event.diagnostic ("Invalid CIDR range: ".toList ++ c)
            ∧ (Event.diagnostic "Invalid CIDR range: 10.0.0.0/33".toList).line
                = "Error: Invalid CIDR range: ".toList ++ c)) :=
  ⟨by decide, (processLog_output (fun _ => none) ["10.0.0.0/33".toList] true
    ["10.1.2.3".toList] _ (by decide)).1⟩

/-- C6, the claim as stated fails: with the range list `not-a-cidr`, inverted,
the log line `10.1.2.3` makes the loop write two lines to standard output, and
the first of them is a diagnostic, not an address. -/
theorem diagnostic_on_stdout :
    (fun parseIPv6 => (processLog parseIPv6 ["not-a-cidr".toList] true
        ["10.1.2.3".toList]).map Event.line)
      = (fun _ => ["Error: Invalid CIDR range: not-a-cidr".toList, "10.1.2.3".toList]) :=
  rfl

/-! ## Range loading, edge prefixes and the order of the ranges -/

/-- Go's `strings.TrimSpace` returns the line without its leading and trailing
white space. -/
theorem TrimSpace_isTrimOf (l : List Char) : isTrimOf l (TrimSpace l) := by
  have hl : l = l.takeWhile isSpace ++ l.dropWhile isSpace :=
    (List.takeWhile_append_dropWhile isSpace l).symm
  have hr : (l.dropWhile isSpace).reverse
      = (l.dropWhile isSpace).reverse.takeWhile isSpace
        ++ (l.dropWhile isSpace).reverse.dropWhile isSpace :=
    (List.takeWhile_append_dropWhile isSpace _).symm
  have hm : l.dropWhile isSpace
      = TrimSpace l ++ ((l.dropWhile isSpace).reverse.takeWhile isSpace).reverse := by
    have h := congrArg List.reverse hr
    rw [List.reverse_reverse, List.reverse_append] at h
    exact h
  refine ⟨l.takeWhile isSpace, ((l.dropWhile isSpace).reverse.takeWhile isSpace).reverse,
    ?_, ?_, ?_, ?_, ?_⟩
  · rw [List.append_assoc, ← hm]
    exact hl
  · intro x hx
    exact List.mem_takeWhile_imp hx
  · intro x hx
    exact List.mem_takeWhile_imp (List.mem_reverse.1 hx)
  · intro x hx
    have hne : TrimSpace l ≠ [] := by
      intro h
      rw [h] at hx
      simp at hx
    have hhead : (l.dropWhile isSpace).head? = some x := by
      rw [hm, List.head?_append_of_ne_nil _ hne]
      exact hx
    have h := List.head?_dropWhile_not isSpace l
    rw [hhead] at h
    simpa using h
  · intro x hx
    have hlast : ((l.dropWhile isSpace).reverse.dropWhile isSpace).head? = some x := by
      rw [← List.getLast?_reverse]
      exact hx
    have h := List.head?_dropWhile_not isSpace (l.dropWhile isSpace).reverse
    rw [hlast] at h
    simpa using h

/-- A line is trimmed to nothing exactly when it holds white space only. -/
theorem TrimSpace_eq_nil_iff (l : List Char) :
    TrimSpace l = [] ↔ ∀ x ∈ l, isSpace x = true := by
  constructor
  · intro h
    obtain ⟨pre, post, hl, hpre, hpost, -, -⟩ := TrimSpace_isTrimOf l
    rw [h, List.append_nil] at hl
    intro x hx
    rw [hl, List.mem_append] at hx
    rcases hx with hx | hx
    · exact hpre x hx
    · exact hpost x hx
  · intro h
    have hd : l.dropWhile isSpace = [] := List.dropWhile_eq_nil_iff.2 h
    simp [TrimSpace, hd]

/-- C11. Range loading keeps entries exactly as given: the loaded list is the
sequence of the lines after white-space trimming with the empty results
removed, in the original order, duplicates and overlapping ranges retained;
its length is the number of non-blank lines. Trimming removes the leading and
the trailing white space of a line and nothing else, and a line is dropped
exactly when it holds white space only. -/
theorem loadCidrs_keeps_entries (lines : List (List Char)) :
    loadCidrs lines [] = (lines.map TrimSpace).filter (fun c => decide (c ≠ []))
      ∧ (loadCidrs lines []).length
          = (lines.filter fun l => decide (TrimSpace l ≠ [])).length
      ∧ (loadCidrs lines []).length = (lines.filter fun l => !l.all isSpace).length
      ∧ (∀ l, isTrimOf l (TrimSpace l))
      ∧ (∀ l, TrimSpace l = [] ↔ ∀ x ∈ l, isSpace x = true)
      ∧ loadCidrs [" 10.0.0.0/8\t".toList, [], " \t\r".toList, "192.168.0.0/16".toList,
            "\u00a010.0.0.0/8\u3000 ".toList, "10.0.0.0 /9".toList] []
          = ["10.0.0.0/8".toList, "192.168.0.0/16".toList, "10.0.0.0/8".toList,
              "10.0.0.0 /9".toList] := by
  have h := loadCidrs_eq lines []
  rw [List.nil_append] at h
  have hlen : (loadCidrs lines []).length
      = (lines.filter fun l => decide (TrimSpace l ≠ [])).length := by
    rw [h]
    clear h
    induction lines with
    | nil => rfl
    | cons l rest ih =>
      rw [List.map_cons, List.filter_cons, List.filter_cons]
      by_cases hl : TrimSpace l = []
      · simpa [hl] using ih
      · simpa [hl] using ih
  have hfilter : (lines.filter fun l => decide (TrimSpace l ≠ []))
      = lines.filter fun l => !l.all isSpace := by
    apply List.filter_congr
    intro l _
    by_cases hl : TrimSpace l = []
    · have hall : l.all isSpace = true := List.all_eq_true.2 ((TrimSpace_eq_nil_iff l).1 hl)
      simp [hl, hall]
    · have hall : l.all isSpace = false := by
        cases hb : l.all isSpace with
        | false => rfl
        | true => exact absurd ((TrimSpace_eq_nil_iff l).2 (List.all_eq_true.1 hb)) hl
      simp [hl, hall]
  refine ⟨h, hlen, ?_, TrimSpace_isTrimOf, TrimSpace_eq_nil_iff, by decide⟩
  rw [hlen, hfilter]

theorem loadCidrs_keeps_entries_witness :
    loadCidrs ["  10.0.0.0/8".toList, "\t".toList, "not-a-cidr \r".toList,
        "10.0.0.0/8".toList] []
      = ["10.0.0.0/8".toList, "not-a-cidr".toList, "10.0.0.0/8".toList] :=
  (loadCidrs_keeps_entries _).1.trans (by decide)

/-- The result of `isIPInRange` on canonical text, by the bytes of the mask of
the prefix length. -/
theorem isIPInRange_masks (parseIPv6 : List Char → Option (List Nat))
    (a0 a1 a2 a3 b0 b1 b2 b3 n m0 m1 m2 m3 : Nat)
    (ha0 : a0 < 256) (ha1 : a1 < 256) (ha2 : a2 < 256) (ha3 : a3 < 256)
    (hb0 : b0 < 256) (hb1 : b1 < 256) (hb2 : b2 < 256) (hb3 : b3 < 256) (hn : n ≤ 32)
    (hm : CIDRMask n 32 = [m0, m1, m2, m3]) :
    isIPInRange parseIPv6 (dottedQuad a0 a1 a2 a3) (cidrText b0 b1 b2 b3 n)
      = .ok (decide (((b0 &&& m0) &&& m0 = a0 &&& m0) ∧ ((b1 &&& m1) &&& m1 = a1 &&& m1)
          ∧ ((b2 &&& m2) &&& m2 = a2 &&& m2) ∧ ((b3 &&& m3) &&& m3 = a3 &&& m3))) := by
  unfold isIPInRange
  simp only [ParseIP_dottedQuad parseIPv6 a0 a1 a2 a3 ha0 ha1 ha2 ha3,
    ParseCIDR_cidrText parseIPv6 b0 b1 b2 b3 n hb0 hb1 hb2 hb3 hn, hm, Contains_v4]

/-- C12. Prefix length 0 matches everything: for every IPv4 base and every
IPv4 address, `isIPInRange(a, b/0)` returns `(true, nil)`. -/
theorem isIPInRange_prefix_zero (parseIPv6 : List Char → Option (List Nat))
    (a0 a1 a2 a3 b0 b1 b2 b3 : Nat)
    (ha0 : a0 < 256) (ha1 : a1 < 256) (ha2 : a2 < 256) (ha3 : a3 < 256)
    (hb0 : b0 < 256) (hb1 : b1 < 256) (hb2 : b2 < 256) (hb3 : b3 < 256) :
    isIPInRange parseIPv6 (dottedQuad a0 a1 a2 a3) (cidrText b0 b1 b2 b3 0) = .ok true := by
  rw [isIPInRange_masks parseIPv6 a0 a1 a2 a3 b0 b1 b2 b3 0 0 0 0 0 ha0 ha1 ha2 ha3
    hb0 hb1 hb2 hb3 (by decide) (by decide)]
  simp

theorem isIPInRange_prefix_zero_witness :
    dottedQuad 8 8 8 8 = "8.8.8.8".toList
      ∧ cidrText 192 168 1 0 0 = "192.168.1.0/0".toList
      ∧ isIPInRange (fun _ => none) (dottedQuad 8 8 8 8) (cidrText 192 168 1 0 0) = .ok true :=
  ⟨by decide, by decide,
    isIPInRange_prefix_zero (fun _ => none) 8 8 8 8 192 168 1 0 (by decide) (by decide)
      (by decide) (by decide) (by decide) (by decide) (by decide) (by decide)⟩

/-- C13. Prefix length 32 matches only the base: for every IPv4 base and every
IPv4 address, `isIPInRange(a, b/32)` returns no error, and returns true exactly
when the two denote the same 32-bit address (the same four bytes). -/
theorem isIPInRange_prefix_32 (parseIPv6 : List Char → Option (List Nat))
    (a0 a1 a2 a3 b0 b1 b2 b3 : Nat)
    (ha0 : a0 < 256) (ha1 : a1 < 256) (ha2 : a2 < 256) (ha3 : a3 < 256)
    (hb0 : b0 < 256) (hb1 : b1 < 256) (hb2 : b2 < 256) (hb3 : b3 < 256) :
    isIPInRange parseIPv6 (dottedQuad a0 a1 a2 a3) (cidrText b0 b1 b2 b3 32)
        = .ok (decide (addr32 a0 a1 a2 a3 = addr32 b0 b1 b2 b3))
      ∧ (isIPInRange parseIPv6 (dottedQuad a0 a1 a2 a3) (cidrText b0 b1 b2 b3 32) = .ok true
          ↔ addr32 a0 a1 a2 a3 = addr32 b0 b1 b2 b3)
      ∧ (addr32 a0 a1 a2 a3 = addr32 b0 b1 b2 b3
          ↔ a0 = b0 ∧ a1 = b1 ∧ a2 = b2 ∧ a3 = b3) := by
  have hbytes : addr32 a0 a1 a2 a3 = addr32 b0 b1 b2 b3
      ↔ a0 = b0 ∧ a1 = b1 ∧ a2 = b2 ∧ a3 = b3 := by
    unfold addr32
    constructor
    · intro h
      omega
    · rintro ⟨rfl, rfl, rfl, rfl⟩
      rfl
  have hres : isIPInRange parseIPv6 (dottedQuad a0 a1 a2 a3) (cidrText b0 b1 b2 b3 32)
      = .ok (decide (addr32 a0 a1 a2 a3 = addr32 b0 b1 b2 b3)) := by
    rw [isIPInRange_masks parseIPv6 a0 a1 a2 a3 b0 b1 b2 b3 32 255 255 255 255 ha0 ha1 ha2 ha3
      hb0 hb1 hb2 hb3 (by decide) (by decide)]
    congr 1
    apply decide_eq_decide.2
    rw [hbytes]
    simp only [land_land_self, land_mask_255 _ ha0, land_mask_255 _ ha1, land_mask_255 _ ha2,
      land_mask_255 _ ha3, land_mask_255 _ hb0, land_mask_255 _ hb1, land_mask_255 _ hb2,
      land_mask_255 _ hb3]
    constructor
    · rintro ⟨h0, h1, h2, h3⟩
      exact ⟨h0.symm, h1.symm, h2.symm, h3.symm⟩
    · rintro ⟨h0, h1, h2, h3⟩
      exact ⟨h0.symm, h1.symm, h2.symm, h3.symm⟩
  refine ⟨hres, ?_, hbytes⟩
  rw [hres]
  simp

theorem isIPInRange_prefix_32_witness :
    isIPInRange (fun _ => none) (dottedQuad 10 1 2 3) (cidrText 10 1 2 4 32)
        = .ok (decide (addr32 10 1 2 3 = addr32 10 1 2 4))
      ∧ (isIPInRange (fun _ => none) (dottedQuad 10 1 2 3) (cidrText 10 1 2 4 32) = .ok true
          ↔ addr32 10 1 2 3 = addr32 10 1 2 4)
      ∧ (addr32 10 1 2 3 = addr32 10 1 2 4 ↔ 10 = 10 ∧ 1 = 1 ∧ 2 = 2 ∧ 3 = 4) :=
  isIPInRange_prefix_32 (fun _ => none) 10 1 2 3 10 1 2 4 (by decide) (by decide) (by decide)
    (by decide) (by decide) (by decide) (by decide) (by decide)

/-- C14. The order of the range list does not affect classification: against a
permutation of the list the emit decision for an address is the same. -/
theorem classify_perm (parseIPv6 : List Char → Option (List Nat))
    (cidrs cidrs1 : List (List Char)) (invertMatch : Bool) (a : List Char)
    (h : cidrs1.Perm cidrs) :
    classify parseIPv6 cidrs1 invertMatch a = classify parseIPv6 cidrs invertMatch a := by
  unfold classify
  congr 1
  rw [matchLoop_fst_eq_any, matchLoop_fst_eq_any, Bool.eq_iff_iff, List.any_eq_true,
    List.any_eq_true]
  constructor
  · rintro ⟨c, hc, hp⟩
    exact ⟨c, h.mem_iff.1 hc, hp⟩
  · rintro ⟨c, hc, hp⟩
    exact ⟨c, h.mem_iff.2 hc, hp⟩

theorem classify_perm_witness :
    classify (fun _ => none) ["10.0.0.0/8".toList, "bad".toList, "192.168.0.0/16".toList]
        false "192.168.1.1".toList
      = classify (fun _ => none) ["bad".toList, "192.168.0.0/16".toList, "10.0.0.0/8".toList]
        false "192.168.1.1".toList :=
  classify_perm (fun _ => none) _ _ false _
    ((List.Perm.swap _ _ _).trans
      (List.Perm.cons _ (List.Perm.swap _ _ _)))

/-! ## Extraction, exactly -/

theorem toDigits_canonicalOctet : ∀ v < 256, isCanonicalOctet (Nat.toDigits 10 v) := by
  decide!

/-- The groups written without a leading zero are the canonical decimal texts
of the numbers below 256. -/
theorem isCanonicalOctet_iff (g : List Char) :
    isCanonicalOctet g ↔ ∃ v, v < 256 ∧ g = Nat.toDigits 10 v := by
  constructor
  · rintro ⟨⟨hlen1, hlen3, hdig, hval⟩, hlead⟩
    have hz : Nat.digitChar 0 = '0' := rfl
    match g, hlen1, hlen3, hdig, hval, hlead with
    | [c1], _, _, hdig, _, _ =>
      obtain ⟨h1a, h1b⟩ := hdig c1 (by simp)
      obtain ⟨d1, -, -, hd1, rfl⟩ := digit_of_class c1 '0' '9' (by decide) (by decide) h1a h1b
      exact ⟨d1, by omega, (toDigits_one d1 hd1).symm⟩
    | [c1, c2], _, _, hdig, _, hlead =>
      obtain ⟨h1a, h1b⟩ := hdig c1 (by simp)
      obtain ⟨h2a, h2b⟩ := hdig c2 (by simp)
      obtain ⟨d1, -, -, hd1, rfl⟩ := digit_of_class c1 '0' '9' (by decide) (by decide) h1a h1b
      obtain ⟨d2, -, -, hd2, rfl⟩ := digit_of_class c2 '0' '9' (by decide) (by decide) h2a h2b
      have hne : d1 ≠ 0 := by
        rintro rfl
        exact hlead (by simp) (by simp [hz])
      exact ⟨10 * d1 + d2, by omega, (toDigits_two d1 hd1 (by omega) d2 hd2).symm⟩
    | [c1, c2, c3], _, _, hdig, hval, hlead =>
      obtain ⟨h1a, h1b⟩ := hdig c1 (by simp)
      obtain ⟨h2a, h2b⟩ := hdig c2 (by simp)
      obtain ⟨h3a, h3b⟩ := hdig c3 (by simp)
      obtain ⟨d1, -, -, hd1, rfl⟩ := digit_of_class c1 '0' '9' (by decide) (by decide) h1a h1b
      obtain ⟨d2, -, -, hd2, rfl⟩ := digit_of_class c2 '0' '9' (by decide) (by decide) h2a h2b
      obtain ⟨d3, -, -, hd3, rfl⟩ := digit_of_class c3 '0' '9' (by decide) (by decide) h3a h3b
      have hne : d1 ≠ 0 := by
        rintro rfl
        exact hlead (by simp) (by simp [hz])
      have hx1 := (digitChar_facts d1 hd1).2.1
      have hx2 := (digitChar_facts d2 hd2).2.1
      have hx3 := (digitChar_facts d3 hd3).2.1
      simp only [decimalValue, List.foldl_cons, List.foldl_nil] at hval
      rw [hx1, hx2, hx3] at hval
      have hv : 100 * d1 + 10 * d2 + d3 < 256 := by omega
      refine ⟨100 * d1 + 10 * d2 + d3, hv, ?_⟩
      rw [toDigits_octet _ hv, if_neg (by omega), if_neg (by omega)]
      have e1 : (100 * d1 + 10 * d2 + d3) / 100 = d1 := by omega
      have e2 : (100 * d1 + 10 * d2 + d3) / 10 % 10 = d2 := by omega
      have e3 : (100 * d1 + 10 * d2 + d3) % 10 = d3 := by omega
      rw [e1, e2, e3]
    | [], h, _, _, _, _ => simp at h
    | _ :: _ :: _ :: _ :: _, _, h, _, _, _ =>
      simp only [List.length_cons] at h
      omega
  · rintro ⟨v, hv, rfl⟩
    exact toDigits_canonicalOctet v hv

/-- The extractor returns the line exactly when the line is a canonical dotted
quad. -/
theorem findAllString_eq_line_iff (line : List Char) :
    findAllString ipRegex line = [line]
      ↔ ∃ a b c d, a < 256 ∧ b < 256 ∧ c < 256 ∧ d < 256 ∧ line = dottedQuad a b c d := by
  constructor
  · intro h
    have hmem : line ∈ findAllString ipRegex line := by
      rw [h]
      exact List.mem_singleton.2 rfl
    exact (extracted_dottedQuad line line hmem).2
  · rintro ⟨a, b, c, d, ha, hb, hc, hd, rfl⟩
    exact findAllString_dottedQuad a b c d ha hb hc hd

/-- C15. Address parsing never fails on an extracted token: for every line and
every string the extractor returns, `net.ParseIP` succeeds, so `isIPInRange`
never takes its `Invalid IP address` branch: its result is decided by
`net.ParseCIDR` and `Contains` alone. -/
theorem extracted_parses (parseIPv6 : List Char → Option (List Nat)) (line s : List Char)
    (h : s ∈ findAllString ipRegex line) :
    ∃ ip, ParseIP parseIPv6 s = some ip ∧
      ∀ cidr, isIPInRange parseIPv6 s cidr
        = match ParseCIDR parseIPv6 cidr with
          | none => .error ("Invalid CIDR range: ".toList ++ cidr)
          | some ipNet => .ok (ipNet.Contains ip) := by
  obtain ⟨-, a, b, c, d, ha, hb, hc, hd, rfl⟩ := extracted_dottedQuad line s h
  refine ⟨_, ParseIP_dottedQuad parseIPv6 a b c d ha hb hc hd, fun cidr => ?_⟩
  rw [isIPInRange, ParseIP_dottedQuad parseIPv6 a b c d ha hb hc hd]

theorem extracted_parses_witness :
    "255.0.199.10".toList ∈ findAllString ipRegex "255.0.199.10".toList
      ∧ ∃ ip, ParseIP (fun _ => none) "255.0.199.10".toList = some ip ∧
          ∀ cidr, isIPInRange (fun _ => none) "255.0.199.10".toList cidr
            = match ParseCIDR (fun _ => none) cidr with
              | none => .error ("Invalid CIDR range: ".toList ++ cidr)
              | some ipNet => .ok (ipNet.Contains ip) :=
  ⟨by decide, extracted_parses (fun _ => none) "255.0.199.10".toList "255.0.199.10".toList
    (by decide)⟩

theorem doExecute_isSome (re : Regex) (t : List Char) (fuel pos q : Nat) (h1 : pos ≤ q)
    (h2 : q < pos + fuel) (h3 : re.ends t q ≠ []) :
    ∃ m, doExecute re t fuel pos = some m := by
  induction fuel generalizing pos with
  | zero => omega
  | succ n ih =>
    rw [doExecute]
    cases hh : (re.ends t pos).head? with
    | some e => exact ⟨_, rfl⟩
    | none =>
      rw [List.head?_eq_none_iff] at hh
      have hne : q ≠ pos := by
        rintro rfl
        exact h3 hh
      exact ih (pos + 1) (by omega) (by omega)

/-- The four-octet group matches a canonical dotted quad wherever it stands in
a text. -/
theorem quadRegex_ends_embedded (pre post : List Char) (a b c d : Nat) (ha : a < 256)
    (hb : b < 256) (hc : c < 256) (hd : d < 256) :
    pre.length + (dottedQuad a b c d).length
      ∈ quadRegex.ends (pre ++ dottedQuad a b c d ++ post) pre.length := by
  rw [mem_ends_iff _ quadRegex_anchorFree]
  refine ⟨dottedQuad a b c d, ?_, ?_, rfl⟩
  · simp only [quadRegex, Regex.lang, iterLang]
    refine ⟨(Nat.toDigits 10 a ++ ['.']) ++ ((Nat.toDigits 10 b ++ ['.'])
      ++ ((Nat.toDigits 10 c ++ ['.']) ++ [])), Nat.toDigits 10 d, ?_,
      ⟨_, _, rfl, ⟨_, _, rfl, octetRegex_lang_complete a ha, rfl⟩,
        _, _, rfl, ⟨_, _, rfl, octetRegex_lang_complete b hb, rfl⟩,
        _, _, rfl, ⟨_, _, rfl, octetRegex_lang_complete c hc, rfl⟩, rfl⟩,
      octetRegex_lang_complete d hd⟩
    simp [dottedQuad]
  · rw [List.append_assoc, List.drop_left, ← List.append_assoc, ← List.length_append,
      List.drop_left]

/-- C16, as the pattern is built. The four-octet group has no boundary
assertion of its own: it matches a dotted quad wherever it stands in a line,
also inside a longer digit run, and a search for the group in such a line finds
a match. In `1192.168.1.11` the match the group gives starts at the second
character and takes the trailing digit: it is `192.168.1.11`, not
`192.168.1.1`. -/
theorem quadRegex_no_boundary (pre post : List Char) (a b c d : Nat) (ha : a < 256)
    (hb : b < 256) (hc : c < 256) (hd : d < 256) :
    pre.length + (dottedQuad a b c d).length
        ∈ quadRegex.ends (pre ++ dottedQuad a b c d ++ post) pre.length
      ∧ findAllString quadRegex (pre ++ dottedQuad a b c d ++ post) ≠ []
      ∧ findAllString quadRegex "1192.168.1.11".toList = ["192.168.1.11".toList] := by
  have hmem := quadRegex_ends_embedded pre post a b c d ha hb hc hd
  refine ⟨hmem, ?_, by decide⟩
  have hq : pre.length ≤ (pre ++ dottedQuad a b c d ++ post).length := by
    simp only [List.length_append]
    omega
  generalize pre ++ dottedQuad a b c d ++ post = t at hmem hq ⊢
  obtain ⟨m, hm⟩ := doExecute_isSome quadRegex t (t.length + 1) 0 pre.length (Nat.zero_le _)
    (by omega) (List.ne_nil_of_mem hmem)
  unfold findAllString
  rw [allMatches, if_pos (Nat.zero_le _), Nat.sub_zero, hm]
  have hneg : ((m.1 : Int) == -1) = false := by
    have : (m.1 : Int) ≠ -1 := by omega
    simp [this]
  simp [hneg]

theorem quadRegex_no_boundary_witness :
    "1".toList ++ dottedQuad 192 168 1 1 ++ "1".toList = "1192.168.1.11".toList
      ∧ ("1".toList.length + (dottedQuad 192 168 1 1).length
          ∈ quadRegex.ends ("1".toList ++ dottedQuad 192 168 1 1 ++ "1".toList)
              "1".toList.length
        ∧ findAllString quadRegex ("1".toList ++ dottedQuad 192 168 1 1 ++ "1".toList) ≠ []
        ∧ findAllString quadRegex "1192.168.1.11".toList = ["192.168.1.11".toList]) :=
  ⟨by decide, quadRegex_no_boundary "1".toList "1".toList 192 168 1 1 (by decide) (by decide)
    (by decide) (by decide)⟩

/-- C16, the claim as stated fails: from the line `1192.168.1.11` the extractor
returns nothing, so its result is not a non-empty one that holds `192.168.1.1`;
and `192.168.1.1` is not what the four-octet group alone finds in that line
either, which is `192.168.1.11`. -/
theorem digit_run_extracts_nothing :
    findAllString ipRegex "1192.168.1.11".toList = []
      ∧ findAllString quadRegex "1192.168.1.11".toList = ["192.168.1.11".toList] := by
  decide

/-- C17. Extraction as implemented: from every line the extractor returns
either nothing or exactly one match, the entire line; it returns the line
exactly when the line is, in full, four dot-separated groups of decimal digits,
each of value 0..255 and written without a leading zero (a single `0`
allowed); so at most one address per log line is classified and emitted. -/
theorem findAllString_ipRegex_exact (line : List Char) :
    (findAllString ipRegex line = [] ∨ findAllString ipRegex line = [line])
      ∧ (findAllString ipRegex line = [line]
          ↔ ∃ g1 g2 g3 g4 : List Char, line = g1 ++ '.' :: (g2 ++ '.' :: (g3 ++ '.' :: g4))
              ∧ isCanonicalOctet g1 ∧ isCanonicalOctet g2 ∧ isCanonicalOctet g3
              ∧ isCanonicalOctet g4)
      ∧ (findAllString ipRegex line).length ≤ 1
      ∧ ∀ (parseIPv6 : List Char → Option (List Nat)) (cidrs : List (List Char))
          (invertMatch : Bool),
          ((processLine parseIPv6 cidrs invertMatch line).filterMap Event.emitted).length
            ≤ 1 := by
  have hcases : findAllString ipRegex line = [] ∨ findAllString ipRegex line = [line] := by
    rw [findAllString_ipRegex]
    split
    · exact Or.inl rfl
    · exact Or.inr rfl
  refine ⟨hcases, ?_, ?_, ?_⟩
  · rw [findAllString_eq_line_iff]
    constructor
    · rintro ⟨a, b, c, d, ha, hb, hc, hd, rfl⟩
      exact ⟨_, _, _, _, rfl, toDigits_canonicalOctet a ha, toDigits_canonicalOctet b hb,
        toDigits_canonicalOctet c hc, toDigits_canonicalOctet d hd⟩
    · rintro ⟨g1, g2, g3, g4, rfl, h1, h2, h3, h4⟩
      obtain ⟨a, ha, rfl⟩ := (isCanonicalOctet_iff g1).1 h1
      obtain ⟨b, hb, rfl⟩ := (isCanonicalOctet_iff g2).1 h2
      obtain ⟨c, hc, rfl⟩ := (isCanonicalOctet_iff g3).1 h3
      obtain ⟨d, hd, rfl⟩ := (isCanonicalOctet_iff g4).1 h4
      exact ⟨a, b, c, d, ha, hb, hc, hd, rfl⟩
  · rcases hcases with h | h <;> simp [h]
  · intro parseIPv6 cidrs invertMatch
    unfold processLine
    rcases hcases with h | h
    · simp [h]
    · rw [h, List.flatMap_cons, List.flatMap_nil, List.append_nil,
        processIP_filterMap_emitted]
      split <;> simp

end Greip
